import Mathlib

/-!
# PixelLife tick engine: a shallow embedding

This file embeds the core simulation engine of `src/drive/pixelife.py`
(the grid, agent/genome model, the `World.step` tick algorithm, the
genetics operators and the periodic global events) as executable Lean
definitions, and proves the specification claims about them.

Modelling conventions:
* Python floats are idealised as rationals (`ℚ`).
* The process-wide `random` generator is an explicit stream
  `Env.stream : ℕ → ℚ` of uniform draws consumed in program order,
  threaded through every function as a cursor index; `random.choice`,
  `random.randrange`, `random.randint` and `random.uniform` each consume
  one draw, `random.shuffle` consumes one draw per element.
* `math.sqrt` has no exact rational counterpart, so it is carried as an
  uninterpreted function `Env.sqrtQ : ℚ → ℚ`; it is only ever used inside
  `color_similarity`, whose result the code clamps to `[0,1]` before use.
* Python objects are mutable and aliased (the grid, the live list and the
  removal queue all hold references).  The embedding gives every agent a
  unique `id`, keeps the single source of truth in the `agents` list, and
  lets the grid and the queues hold ids; field mutation becomes an
  id-directed functional update of the store.
-/

namespace PixeLife

/-- One agent: position, the 7-trait genome, energy, age, and the
process-unique identity assigned at creation (`Agent._id_counter`). -/
structure Agent where
  x : ℕ
  y : ℕ
  r : ℚ
  g : ℚ
  b : ℚ
  strength : ℚ
  mobility : ℚ
  cooperation : ℚ
  give_way : ℚ
  energy : ℚ
  age : ℕ
  id : ℕ
deriving DecidableEq

/-! ## Tuning constants (`pixelife.py` lines 29-37) -/

def BASE_ENERGY : ℚ := 100
def MOVE_COST : ℚ := 1
def REPRODUCE_COST : ℚ := 30
def ENERGY_GAIN_ON_KILL : ℚ := 40
def MUTATION_RATE : ℚ := 8/100
def MUTATION_MAG : ℚ := 12/100
def MIN_ENERGY_TO_REPRODUCE : ℚ := 80
def MAX_AGE : ℕ := 9999

/-! ## Helpers (`pixelife.py` lines 42-55) -/

/-- `clamp(v, a, b) = max(a, min(b, v))`. -/
def clamp (v a b : ℚ) : ℚ := max a (min b v)

/-- `mix(a, b) = (a + b) / 2.0`. -/
def mix (a b : ℚ) : ℚ := (a + b) / 2

/-- The random environment: the shared generator's stream of uniform
draws, plus an uninterpreted stand-in for `math.sqrt`. -/
structure Env where
  stream : ℕ → ℚ
  sqrtQ : ℚ → ℚ

/-- `random.uniform(a, b)` applied to the uniform draw `u`. -/
def uniformQ (u a b : ℚ) : ℚ := a + (b - a) * u

/-- Maps a uniform draw `u ∈ [0,1)` to an index below `n`
(total: reduced `mod n` so the result is in range for any input). -/
def idxBelow (u : ℚ) (n : ℕ) : ℕ := (⌊u * n⌋).toNat % n

/-- `mutate_value(x, mag) = clamp(x + random.uniform(-mag, mag), 0.0, 1.0)`,
with the consumed draw `u` made explicit. -/
def mutate_value (u x mag : ℚ) : ℚ := clamp (x + uniformQ u (-mag) mag) 0 1

/-- `step_energy_cost`: metabolic cost per tick
(`0.2 + mobility*0.5 + strength*0.3`). -/
def step_energy_cost (a : Agent) : ℚ := 1/5 + a.mobility * (1/2) + a.strength * (3/10)

/-! ## The mutation operator (`Agent.try_mutate`, lines 97-114)

Each of the 7 traits mutates independently: a trigger draw against
`MUTATION_RATE`; on trigger, a noise draw within `±MUTATION_MAG` is added
and the trait is clamped to `[0,1]` (the r/g/b channels via
`mutate_value`, the other four inline with the identical formula), and the
`changed` flag is set. -/

/-- One per-trait stage of `try_mutate`, parameterised by the trait's
getter and setter. -/
def mutOne (env : Env) (get : Agent → ℚ) (set : Agent → ℚ → Agent) :
    Agent × Bool × ℕ → Agent × Bool × ℕ
  | (a, changed, k) =>
    if env.stream k < MUTATION_RATE then
      (set a (mutate_value (env.stream (k + 1)) (get a) MUTATION_MAG), true, k + 2)
    else
      (a, changed, k + 1)

/-- The 7 per-trait stages of `try_mutate` in source order
(r, g, b, strength, mobility, cooperation, give_way), each given by the
trait's getter and setter. -/
def mutStages : List ((Agent → ℚ) × (Agent → ℚ → Agent)) :=
  [(fun a => a.r, fun a v => { a with r := v }),
   (fun a => a.g, fun a v => { a with g := v }),
   (fun a => a.b, fun a v => { a with b := v }),
   (fun a => a.strength, fun a v => { a with strength := v }),
   (fun a => a.mobility, fun a v => { a with mobility := v }),
   (fun a => a.cooperation, fun a v => { a with cooperation := v }),
   (fun a => a.give_way, fun a v => { a with give_way := v })]

/-- `Agent.try_mutate`: the 7 per-trait mutation stages run in source
order.  Returns the (possibly) mutated agent, the `changed` flag, and
the new stream cursor. -/
def try_mutate (env : Env) (k : ℕ) (a : Agent) : Agent × Bool × ℕ :=
  mutStages.foldl (fun p gs => mutOne env gs.1 gs.2 p) (a, false, k)

/-! ## Interaction helpers (`pixelife.py` lines 304-334) -/

/-- `color_similarity`: clamped cosine similarity of the two color
vectors; `math.sqrt` is the uninterpreted `env.sqrtQ`. -/
def color_similarity (sq : ℚ → ℚ) (a b : Agent) : ℚ :=
  let dot := a.r * b.r + a.g * b.g + a.b * b.b
  let mag_a := sq (a.r * a.r + a.g * a.g + a.b * a.b) + 1/1000000000
  let mag_b := sq (b.r * b.r + b.g * b.g + b.b * b.b) + 1/1000000000
  clamp (dot / (mag_a * mag_b)) 0 1

/-- `fight(a, b)`: `True` when `a` wins, decided by one draw against
`score_a / (score_a + score_b + 1e-9)` where
`score(x) = strength*1.5 + energy/(BASE_ENERGY*1.5)`. -/
def fight (env : Env) (k : ℕ) (a b : Agent) : Bool × ℕ :=
  let score_a := a.strength * (3/2) + a.energy / (BASE_ENERGY * (3/2))
  let score_b := b.strength * (3/2) + b.energy / (BASE_ENERGY * (3/2))
  let prob_a := score_a / (score_a + score_b + 1/1000000000)
  (decide (env.stream k < prob_a), k + 1)

/-- `reproduce(a, b, x, y)`: the child's genome is the component-wise
mean of the parents; `Agent.__init__` first draws a random starting
energy (one consumed draw) which `reproduce` immediately overwrites with
`(a.energy + b.energy) * 0.15`.  `nid` is the value taken by the global
`Agent._id_counter`. -/
def reproduce (env : Env) (k : ℕ) (a b : Agent) (x y : ℕ) (nid : ℕ) : Agent × ℕ :=
  let child : Agent :=
    { x := x, y := y
      r := mix a.r b.r, g := mix a.g b.g, b := mix a.b b.b
      strength := mix a.strength b.strength
      mobility := mix a.mobility b.mobility
      cooperation := mix a.cooperation b.cooperation
      give_way := mix a.give_way b.give_way
      energy := BASE_ENERGY * (3/5 + env.stream k * (4/5))
      age := 0, id := nid }
  ({ child with energy := (a.energy + b.energy) * (3/20) }, k + 1)

/-! ## The grid (`World.grid`, a width-indexed list of height-indexed
columns, each cell an optional agent id) -/

abbrev Grid := List (List (Option ℕ))

/-- `self.grid[x][y]` (out-of-range reads yield `none`; the code never
makes them). -/
def gridGet (g : Grid) (x y : ℕ) : Option ℕ :=
  ((g[x]?).bind fun col => col[y]?).getD none

/-- `self.grid[x][y] = v` (out-of-range writes are dropped; the code
never makes them). -/
def gridSet (g : Grid) (x y : ℕ) (v : Option ℕ) : Grid :=
  g.set x ((g[x]?.getD []).set y v)

/-! ## Agent-store operations (mutable aliased objects become
id-directed updates of the live list) -/

/-- Dereference an agent id in the store. -/
def lookupAgent (l : List Agent) (i : ℕ) : Option Agent :=
  l.find? (fun a => a.id == i)

/-- Mutate the agent object with id `i` (all other list entries are
untouched; ids are unique in every reachable state). -/
def updAgent (l : List Agent) (i : ℕ) (f : Agent → Agent) : List Agent :=
  l.map (fun a => if a.id = i then f a else a)

/-- `self.agents.remove(obj)`: drop the first store entry with id `i`
(a no-op when absent, like the `except ValueError: pass` in the meteor
event). -/
def eraseById : List Agent → ℕ → List Agent
  | [], _ => []
  | a :: rest, i => if a.id = i then rest else a :: eraseById rest i

/-- The ids of a list of agents. -/
def idsOf (l : List Agent) : List ℕ := l.map Agent.id

/-! ## Neighborhood (`World.neighbors`, lines 144-149) -/

/-- The direction list in source order. -/
def dirs : List (ℤ × ℤ) := [(-1,0), (1,0), (0,-1), (0,1), (-1,-1), (1,1), (-1,1), (1,-1)]

/-- `World.neighbors(x, y)`: in-bounds Moore neighbours, in the stable
`dirs` order. -/
def neighborsList (W H x y : ℕ) : List (ℕ × ℕ) :=
  dirs.filterMap fun d =>
    let nx := (x : ℤ) + d.1
    let ny := (y : ℤ) + d.2
    if 0 ≤ nx ∧ nx < (W : ℤ) ∧ 0 ≤ ny ∧ ny < (H : ℤ) then some (nx.toNat, ny.toNat)
    else none

/-- First in-bounds Moore neighbour whose cell is empty (the linear scan
used by both the occupant-vacate and the reproduction branches). -/
def firstEmptyNeighbor (g : Grid) (W H x y : ℕ) : Option (ℕ × ℕ) :=
  (neighborsList W H x y).find? fun p => (gridGet g p.1 p.2).isNone

/-! ## The world and the in-tick sweep state -/

/-- `World`: grid, live list, tick counter, per-tick mutation counter,
event log, and the (modelled-global) id counter. -/
structure World where
  width : ℕ
  height : ℕ
  grid : Grid
  agents : List Agent
  tick : ℕ
  recent_mutations : ℕ
  event_log : List String
  nextId : ℕ
deriving DecidableEq

/-- The mutable state of one sweep of `World.step`: the live store, the
grid, the deferred removal/addition queues, the per-tick mutation count,
the id counter and the stream cursor. -/
structure SState where
  agents : List Agent
  grid : Grid
  toRemove : List ℕ
  toAdd : List Agent
  recent : ℕ
  nextId : ℕ
  k : ℕ
deriving DecidableEq

/-- The agent relocation of lines 182-185 (and 204-207): clear the old
cell, update the stored position, occupy the target, pay `MOVE_COST`. -/
def doMoveAgent (s : SState) (a : Agent) (tx ty : ℕ) : SState :=
  { s with
    grid := gridSet (gridSet s.grid a.x a.y none) tx ty (some a.id)
    agents := updAgent s.agents a.id fun b => { b with x := tx, y := ty, energy := b.energy - MOVE_COST } }

/-- The occupant vacate move of lines 197-199 (no move cost). -/
def doMoveOccupant (s : SState) (occ : Agent) (nx ny : ℕ) : SState :=
  { s with
    grid := gridSet (gridSet s.grid occ.x occ.y none) nx ny (some occ.id)
    agents := updAgent s.agents occ.id fun b => { b with x := nx, y := ny } }

/-- Fight resolution (lines 227-239): one draw; the winner gains
`ENERGY_GAIN_ON_KILL`, the loser is queued for removal. -/
def resolveFight (env : Env) (s : SState) (a occ : Agent) : SState :=
  let res := fight env s.k a occ
  if res.1 then
    { s with toRemove := s.toRemove ++ [occ.id]
             agents := updAgent s.agents a.id fun b => { b with energy := b.energy + ENERGY_GAIN_ON_KILL }
             k := res.2 }
  else
    { s with toRemove := s.toRemove ++ [a.id], k := res.2 }

/-- The occupied-target interaction (lines 187-239): give way, let the
occupant give way, reproduce, or fight. -/
def interact (env : Env) (W H : ℕ) (s : SState) (a occ : Agent) (tx ty : ℕ) : SState :=
  if env.stream s.k < a.give_way then
    -- agent gives way: stays and loses small energy
    { s with agents := updAgent s.agents a.id fun b => { b with energy := b.energy - 1/2 }
             k := s.k + 1 }
  else if env.stream (s.k + 1) < occ.give_way then
    -- occupant gives way -> occupant moves away if possible
    let s := { s with k := s.k + 2 }
    match firstEmptyNeighbor s.grid W H occ.x occ.y with
    | some (nx, ny) =>
      let s := doMoveOccupant s occ nx ny
      -- now move agent into freed cell if freed
      if gridGet s.grid tx ty = none then doMoveAgent s a tx ty else s
    | none => s
  else
    -- fight or reproduce depending on cooperation and compatibility
    let s := { s with k := s.k + 2 }
    let compat := color_similarity env.sqrtQ a occ
    let u := env.stream s.k
    let s := { s with k := s.k + 1 }
    if u < a.cooperation * occ.cooperation * compat then
      match firstEmptyNeighbor s.grid W H a.x a.y with
      | some (nx, ny) =>
        -- reproduce (create child in a nearby empty cell)
        let rep := reproduce env s.k a occ nx ny s.nextId
        let mres := try_mutate env rep.2 rep.1
        { s with toAdd := s.toAdd ++ [mres.1]
                 agents := updAgent
                    (updAgent s.agents a.id fun b => { b with energy := b.energy - REPRODUCE_COST })
                    occ.id fun b => { b with energy := b.energy - REPRODUCE_COST / (3/2) }
                 recent := if mres.2.1 then s.recent + 1 else s.recent
                 nextId := s.nextId + 1
                 k := mres.2.2 }
      | none =>
        -- no space -> fight instead
        resolveFight env s a occ
    else
      resolveFight env s a occ

/-- The movement phase of one agent's turn (lines 172-239): a mobility
draw, a uniform choice among stay + neighbours, then move or interact. -/
def moveBlock (env : Env) (W H : ℕ) (s : SState) (a : Agent) : SState :=
  let u := env.stream s.k
  let s := { s with k := s.k + 1 }
  if u < a.mobility then
    let choices := (a.x, a.y) :: neighborsList W H a.x a.y
    let t := choices.getD (idxBelow (env.stream s.k) choices.length) (a.x, a.y)
    let s := { s with k := s.k + 1 }
    if t = (a.x, a.y) then s
    else
      match gridGet s.grid t.1 t.2 with
      | none => doMoveAgent s a t.1 t.2
      | some occId =>
        match lookupAgent s.agents occId with
        | some occ => interact env W H s a occ t.1 t.2
        | none => s
  else s

/-- One agent's turn in the sweep (lines 157-243): skip when its energy
is already non-positive; otherwise age, pay metabolism (dying if energy
drops to `≤ 0`), run the movement phase, then the max-age check. -/
def processAgent (env : Env) (W H : ℕ) (s : SState) (i : ℕ) : SState :=
  match lookupAgent s.agents i with
  | none => s
  | some a0 =>
    -- Skip agents that may have died earlier in this tick
    if a0.energy ≤ 0 then
      if i ∈ s.toRemove then s else { s with toRemove := s.toRemove ++ [i] }
    else
      -- base aging and metabolism
      let a1 := { a0 with age := a0.age + 1, energy := a0.energy - step_energy_cost a0 }
      let s := { s with agents := updAgent s.agents i fun _ => a1 }
      if a1.energy ≤ 0 then { s with toRemove := s.toRemove ++ [i] }
      else
        let s := moveBlock env W H s a1
        -- death by age
        if MAX_AGE < a1.age then { s with toRemove := s.toRemove ++ [i] } else s

/-! ## Shuffle, commit, events -/

/-- Insert at an index (total). -/
def insertAt (x : α) : ℕ → List α → List α
  | _, [] => [x]
  | 0, l => x :: l
  | n + 1, a :: l => a :: insertAt x n l

/-- `random.shuffle(self.agents)`: a stream-determined uniform
permutation, one draw per element. -/
def shuffleAgents (env : Env) (l : List Agent) (k : ℕ) : List Agent × ℕ :=
  l.foldl
    (fun p a => (insertAt a (idxBelow (env.stream p.2) (p.1.length + 1)) p.1, p.2 + 1))
    ([], k)

/-- The removal commit (lines 246-253): clear the dying agent's cell only
if it still references it, then drop it from the live list. -/
def commitRemovals : List ℕ → List Agent → Grid → List Agent × Grid
  | [], ags, g => (ags, g)
  | i :: rest, ags, g =>
    match lookupAgent ags i with
    | some d =>
      let g' := if gridGet g d.x d.y = some i then gridSet g d.x d.y none else g
      commitRemovals rest (eraseById ags i) g'
    | none => commitRemovals rest ags g

/-- The birth commit (lines 254-257): place each queued child only if its
target cell is still empty; otherwise the birth is silently lost. -/
def commitAdds : List Agent → List Agent → Grid → List Agent × Grid
  | [], ags, g => (ags, g)
  | c :: rest, ags, g =>
    if gridGet g c.x c.y = none then
      commitAdds rest (ags ++ [c]) (gridSet g c.x c.y (some c.id))
    else
      commitAdds rest ags g

/-- `World._meteor_event` (lines 269-283): kill every occupant of a
random square patch, then log the body count. -/
def meteorEvent (env : Env) (w : World) (k : ℕ) : World × ℕ :=
  let cx := idxBelow (env.stream k) w.width
  let cy := idxBelow (env.stream (k + 1)) w.height
  let radius := 3 + idxBelow (env.stream (k + 2)) 10
  let xs := (List.range w.width).filter fun x => cx - radius ≤ x ∧ x ≤ cx + radius
  let ys := (List.range w.height).filter fun y => cy - radius ≤ y ∧ y ≤ cy + radius
  let res := xs.foldl
    (fun acc x => ys.foldl
      (fun (acc : ℕ × List Agent × Grid) y =>
        match gridGet acc.2.2 x y with
        | some i => (acc.1 + 1, eraseById acc.2.1 i, gridSet acc.2.2 x y none)
        | none => acc)
      acc)
    ((0 : ℕ), w.agents, w.grid)
  ({ w with agents := res.2.1, grid := res.2.2
            event_log := w.event_log ++ ["  " ++ toString res.1 ++ " individuos muertos por meteoro"] },
   k + 3)

/-- The per-agent energy drain of `World._drought_event`
(`a.energy -= random.uniform(5, 20)`, one draw per agent in list order). -/
def droughtGo (env : Env) : ℕ → List Agent → List Agent × ℕ
  | k, [] => ([], k)
  | k, a :: rest =>
    let a' := { a with energy := a.energy - uniformQ (env.stream k) 5 20 }
    let r := droughtGo env (k + 1) rest
    (a' :: r.1, r.2)

/-- `World._drought_event` (lines 285-288). -/
def droughtEvent (env : Env) (w : World) (k : ℕ) : World × ℕ :=
  let r := droughtGo env k w.agents
  ({ w with agents := r.1 }, r.2)

/-- `World.step` (lines 151-267): bump the tick, reset the mutation
counter, shuffle, sweep an immutable snapshot of the live list, commit
removals then births, and fire a global event every 2000 ticks. -/
def step (env : Env) (w : World) (k : ℕ) : World × ℕ :=
  let tick := w.tick + 1
  let sh := shuffleAgents env w.agents k
  let s0 : SState := ⟨sh.1, w.grid, [], [], 0, w.nextId, sh.2⟩
  let s1 := (sh.1.map Agent.id).foldl (processAgent env w.width w.height) s0
  let com := commitRemovals s1.toRemove s1.agents s1.grid
  let com2 := commitAdds s1.toAdd com.1 com.2
  let w1 := { w with tick := tick, recent_mutations := s1.recent
                     agents := com2.1, grid := com2.2, nextId := s1.nextId }
  if tick % 2000 = 0 then
    if env.stream s1.k < 1/2 then
      meteorEvent env
        { w1 with event_log := w1.event_log ++ [toString tick ++ ": Meteoro - zona afectada"] }
        (s1.k + 1)
    else
      droughtEvent env
        { w1 with event_log := w1.event_log ++ [toString tick ++ ": Sequía - energía reducida temporalmente"] }
        (s1.k + 1)
  else (w1, s1.k)

/-! ## Stats aggregator (`count_species_by_color`, lines 290-301) -/

/-- Truncation toward zero, Python's `int()` on a float. -/
def truncQ (q : ℚ) : ℤ := q.num / (q.den : ℤ)

/-- The color bucket of one agent. -/
def bucketKey (a : Agent) (bucket : ℕ) : ℤ × ℤ × ℤ :=
  (truncQ (a.r * bucket), truncQ (a.g * bucket), truncQ (a.b * bucket))

/-- Increment a key's tally in an insertion-ordered counter. -/
def bumpKey : List ((ℤ × ℤ × ℤ) × ℕ) → (ℤ × ℤ × ℤ) → List ((ℤ × ℤ × ℤ) × ℕ)
  | [], key => [(key, 1)]
  | (k0, c) :: rest, key =>
    if k0 = key then (k0, c + 1) :: rest else (k0, c) :: bumpKey rest key

/-- `Counter.most_common(1)[0]`: the most populous bucket, earliest
inserted winning ties (CPython's stable descending sort). -/
def mostCommon : List ((ℤ × ℤ × ℤ) × ℕ) → Option ((ℤ × ℤ × ℤ) × ℕ)
  | [] => none
  | p :: rest => some (rest.foldl (fun best q => if best.2 < q.2 then q else best) p)

/-- `World.count_species_by_color`: bucket the live agents' colors,
return the dominant bucket's reconstructed color and count, or the
`(None, 0)` sentinel for an empty population. -/
def count_species_by_color (w : World) (bucket : ℕ) : Option (ℤ × ℤ × ℤ) × ℕ :=
  let ctr := w.agents.foldl (fun m a => bumpKey m (bucketKey a bucket)) []
  match mostCommon ctr with
  | none => (none, 0)
  | some (key, c) =>
    let d : ℚ := if 1 < bucket then (bucket - 1 : ℕ) else 1
    ((some (truncQ ((key.1 * 255 : ℚ) / d),
            truncQ ((key.2.1 * 255 : ℚ) / d),
            truncQ ((key.2.2 * 255 : ℚ) / d)), c))

/-! # Proof development

## Range facts about the genetics operators -/

/-- All 7 genome traits lie in `[0,1]`. -/
def traitsOk (a : Agent) : Prop :=
  0 ≤ a.r ∧ a.r ≤ 1 ∧ 0 ≤ a.g ∧ a.g ≤ 1 ∧ 0 ≤ a.b ∧ a.b ≤ 1 ∧
  0 ≤ a.strength ∧ a.strength ≤ 1 ∧ 0 ≤ a.mobility ∧ a.mobility ≤ 1 ∧
  0 ≤ a.cooperation ∧ a.cooperation ≤ 1 ∧ 0 ≤ a.give_way ∧ a.give_way ≤ 1

instance (a : Agent) : Decidable (traitsOk a) := by unfold traitsOk; infer_instance

theorem le_clamp (v a b : ℚ) : a ≤ clamp v a b := le_max_left _ _

theorem clamp_le (v a b : ℚ) (h : a ≤ b) : clamp v a b ≤ b :=
  max_le h (min_le_left _ _)

theorem mutate_value_mem (u x mag : ℚ) :
    0 ≤ mutate_value u x mag ∧ mutate_value u x mag ≤ 1 :=
  ⟨le_clamp _ _ _, clamp_le _ _ _ (by norm_num)⟩

theorem min_le_mix (p q : ℚ) : min p q ≤ mix p q := by
  rcases le_total p q with h | h
  · rw [min_eq_left h]; unfold mix; linarith
  · rw [min_eq_right h]; unfold mix; linarith

theorem mix_le_max (p q : ℚ) : mix p q ≤ max p q := by
  rcases le_total p q with h | h
  · rw [max_eq_right h]; unfold mix; linarith
  · rw [max_eq_left h]; unfold mix; linarith

theorem mix_mem (p q : ℚ) (hp0 : 0 ≤ p) (hp1 : p ≤ 1) (hq0 : 0 ≤ q) (hq1 : q ≤ 1) :
    0 ≤ mix p q ∧ mix p q ≤ 1 := by unfold mix; constructor <;> linarith

/-- Everything except the 7 traits agrees between two agent records. -/
def coreEq (a b : Agent) : Prop :=
  b.id = a.id ∧ b.x = a.x ∧ b.y = a.y ∧ b.age = a.age ∧ b.energy = a.energy

theorem coreEq_refl (a : Agent) : coreEq a a := ⟨rfl, rfl, rfl, rfl, rfl⟩

theorem coreEq_trans {a b c : Agent} (h1 : coreEq a b) (h2 : coreEq b c) : coreEq a c :=
  ⟨h2.1.trans h1.1, h2.2.1.trans h1.2.1, h2.2.2.1.trans h1.2.2.1,
   h2.2.2.2.1.trans h1.2.2.2.1, h2.2.2.2.2.trans h1.2.2.2.2⟩

/-- One mutation stage keeps all traits in range provided its setter
does. -/
theorem mutOne_traitsOk {env : Env} {get : Agent → ℚ} {set : Agent → ℚ → Agent}
    (hset : ∀ a v, traitsOk a → 0 ≤ v → v ≤ 1 → traitsOk (set a v))
    (p : Agent × Bool × ℕ) (h : traitsOk p.1) : traitsOk (mutOne env get set p).1 := by
  rcases p with ⟨a, c, k⟩
  simp only [mutOne]
  split
  · exact hset _ _ h (mutate_value_mem _ _ _).1 (mutate_value_mem _ _ _).2
  · exact h

/-- One mutation stage never touches position, energy, age or id,
provided its setter does not. -/
theorem mutOne_core {env : Env} {get : Agent → ℚ} {set : Agent → ℚ → Agent}
    (hset : ∀ a v, coreEq a (set a v))
    (p : Agent × Bool × ℕ) : coreEq p.1 (mutOne env get set p).1 := by
  rcases p with ⟨a, c, k⟩
  simp only [mutOne]
  split
  · exact hset _ _
  · exact coreEq_refl a

/-- A stage reporting no change did not change the agent (and the flag
was already false coming in). -/
theorem mutOne_false {env : Env} {get : Agent → ℚ} {set : Agent → ℚ → Agent}
    (p : Agent × Bool × ℕ) (h : (mutOne env get set p).2.1 = false) :
    (mutOne env get set p).1 = p.1 ∧ p.2.1 = false := by
  rcases p with ⟨a, c, k⟩
  by_cases hc : env.stream k < MUTATION_RATE
  · simp [mutOne, hc] at h
  · simp [mutOne, hc] at h ⊢
    exact h

theorem traitsOk_set_r {a : Agent} {v : ℚ} (ha : traitsOk a) (h0 : 0 ≤ v) (h1 : v ≤ 1) :
    traitsOk { a with r := v } := by
  obtain ⟨p1, p2, p3, p4, p5, p6, p7, p8, p9, p10, p11, p12, p13, p14⟩ := ha
  exact ⟨h0, h1, p3, p4, p5, p6, p7, p8, p9, p10, p11, p12, p13, p14⟩

theorem traitsOk_set_g {a : Agent} {v : ℚ} (ha : traitsOk a) (h0 : 0 ≤ v) (h1 : v ≤ 1) :
    traitsOk { a with g := v } := by
  obtain ⟨p1, p2, p3, p4, p5, p6, p7, p8, p9, p10, p11, p12, p13, p14⟩ := ha
  exact ⟨p1, p2, h0, h1, p5, p6, p7, p8, p9, p10, p11, p12, p13, p14⟩

theorem traitsOk_set_b {a : Agent} {v : ℚ} (ha : traitsOk a) (h0 : 0 ≤ v) (h1 : v ≤ 1) :
    traitsOk { a with b := v } := by
  obtain ⟨p1, p2, p3, p4, p5, p6, p7, p8, p9, p10, p11, p12, p13, p14⟩ := ha
  exact ⟨p1, p2, p3, p4, h0, h1, p7, p8, p9, p10, p11, p12, p13, p14⟩

theorem traitsOk_set_strength {a : Agent} {v : ℚ} (ha : traitsOk a) (h0 : 0 ≤ v) (h1 : v ≤ 1) :
    traitsOk { a with strength := v } := by
  obtain ⟨p1, p2, p3, p4, p5, p6, p7, p8, p9, p10, p11, p12, p13, p14⟩ := ha
  exact ⟨p1, p2, p3, p4, p5, p6, h0, h1, p9, p10, p11, p12, p13, p14⟩

theorem traitsOk_set_mobility {a : Agent} {v : ℚ} (ha : traitsOk a) (h0 : 0 ≤ v) (h1 : v ≤ 1) :
    traitsOk { a with mobility := v } := by
  obtain ⟨p1, p2, p3, p4, p5, p6, p7, p8, p9, p10, p11, p12, p13, p14⟩ := ha
  exact ⟨p1, p2, p3, p4, p5, p6, p7, p8, h0, h1, p11, p12, p13, p14⟩

theorem traitsOk_set_cooperation {a : Agent} {v : ℚ} (ha : traitsOk a) (h0 : 0 ≤ v) (h1 : v ≤ 1) :
    traitsOk { a with cooperation := v } := by
  obtain ⟨p1, p2, p3, p4, p5, p6, p7, p8, p9, p10, p11, p12, p13, p14⟩ := ha
  exact ⟨p1, p2, p3, p4, p5, p6, p7, p8, p9, p10, h0, h1, p13, p14⟩

theorem traitsOk_set_give_way {a : Agent} {v : ℚ} (ha : traitsOk a) (h0 : 0 ≤ v) (h1 : v ≤ 1) :
    traitsOk { a with give_way := v } := by
  obtain ⟨p1, p2, p3, p4, p5, p6, p7, p8, p9, p10, p11, p12, p13, p14⟩ := ha
  exact ⟨p1, p2, p3, p4, p5, p6, p7, p8, p9, p10, p11, p12, h0, h1⟩

/-- Every stage's setter keeps traits in range and preserves the core
fields. -/
theorem mutStages_laws :
    ∀ gs ∈ mutStages,
      (∀ a v, traitsOk a → 0 ≤ v → v ≤ 1 → traitsOk (gs.2 a v)) ∧
      (∀ a v, coreEq a (gs.2 a v)) := by
  intro gs hgs
  simp only [mutStages, List.mem_cons, List.mem_singleton, List.mem_nil_iff, or_false] at hgs
  rcases hgs with rfl | rfl | rfl | rfl | rfl | rfl | rfl
  · exact ⟨fun a v ha h0 h1 => traitsOk_set_r ha h0 h1, fun a v => ⟨rfl, rfl, rfl, rfl, rfl⟩⟩
  · exact ⟨fun a v ha h0 h1 => traitsOk_set_g ha h0 h1, fun a v => ⟨rfl, rfl, rfl, rfl, rfl⟩⟩
  · exact ⟨fun a v ha h0 h1 => traitsOk_set_b ha h0 h1, fun a v => ⟨rfl, rfl, rfl, rfl, rfl⟩⟩
  · exact ⟨fun a v ha h0 h1 => traitsOk_set_strength ha h0 h1, fun a v => ⟨rfl, rfl, rfl, rfl, rfl⟩⟩
  · exact ⟨fun a v ha h0 h1 => traitsOk_set_mobility ha h0 h1, fun a v => ⟨rfl, rfl, rfl, rfl, rfl⟩⟩
  · exact ⟨fun a v ha h0 h1 => traitsOk_set_cooperation ha h0 h1, fun a v => ⟨rfl, rfl, rfl, rfl, rfl⟩⟩
  · exact ⟨fun a v ha h0 h1 => traitsOk_set_give_way ha h0 h1, fun a v => ⟨rfl, rfl, rfl, rfl, rfl⟩⟩

theorem mutFold_traitsOk (env : Env) (stages : List ((Agent → ℚ) × (Agent → ℚ → Agent)))
    (hst : ∀ gs ∈ stages, ∀ a v, traitsOk a → 0 ≤ v → v ≤ 1 → traitsOk (gs.2 a v)) :
    ∀ p : Agent × Bool × ℕ, traitsOk p.1 →
      traitsOk (stages.foldl (fun p gs => mutOne env gs.1 gs.2 p) p).1 := by
  induction stages with
  | nil => exact fun p h => h
  | cons gs rest ih =>
    intro p h
    exact ih (fun g hg => hst g (List.mem_cons_of_mem _ hg)) _
      (mutOne_traitsOk (hst gs (List.mem_cons_self _ _)) p h)

theorem mutFold_core (env : Env) (stages : List ((Agent → ℚ) × (Agent → ℚ → Agent)))
    (hst : ∀ gs ∈ stages, ∀ a v, coreEq a (gs.2 a v)) :
    ∀ p : Agent × Bool × ℕ,
      coreEq p.1 (stages.foldl (fun p gs => mutOne env gs.1 gs.2 p) p).1 := by
  induction stages with
  | nil => exact fun p => coreEq_refl _
  | cons gs rest ih =>
    intro p
    exact coreEq_trans (mutOne_core (hst gs (List.mem_cons_self _ _)) p)
      (ih (fun g hg => hst g (List.mem_cons_of_mem _ hg)) _)

theorem mutFold_false (env : Env) (stages : List ((Agent → ℚ) × (Agent → ℚ → Agent))) :
    ∀ p : Agent × Bool × ℕ,
      (stages.foldl (fun p gs => mutOne env gs.1 gs.2 p) p).2.1 = false →
      (stages.foldl (fun p gs => mutOne env gs.1 gs.2 p) p).1 = p.1 ∧ p.2.1 = false := by
  induction stages with
  | nil => exact fun p h => ⟨rfl, h⟩
  | cons gs rest ih =>
    intro p h
    obtain ⟨h1, h2⟩ := ih _ h
    obtain ⟨h3, h4⟩ := mutOne_false p h2
    exact ⟨h1.trans h3, h4⟩

/-- `try_mutate` keeps every trait in `[0,1]`. -/
theorem try_mutate_traitsOk (env : Env) (k : ℕ) (a : Agent) (h : traitsOk a) :
    traitsOk (try_mutate env k a).1 :=
  mutFold_traitsOk env mutStages (fun gs hgs => (mutStages_laws gs hgs).1) _ h

/-- `try_mutate` never touches position, energy, age or id. -/
theorem try_mutate_core (env : Env) (k : ℕ) (a : Agent) :
    coreEq a (try_mutate env k a).1 :=
  mutFold_core env mutStages (fun gs hgs => (mutStages_laws gs hgs).2) _

/-- A `try_mutate` run reporting no change left the agent unchanged. -/
theorem try_mutate_false (env : Env) (k : ℕ) (a : Agent)
    (h : (try_mutate env k a).2.1 = false) : (try_mutate env k a).1 = a :=
  (mutFold_false env mutStages _ h).1

/-! ## Reproduction facts -/

theorem reproduce_fst (env : Env) (k : ℕ) (a b : Agent) (x y nid : ℕ) :
    (reproduce env k a b x y nid).1 =
      { x := x, y := y
        r := mix a.r b.r, g := mix a.g b.g, b := mix a.b b.b
        strength := mix a.strength b.strength
        mobility := mix a.mobility b.mobility
        cooperation := mix a.cooperation b.cooperation
        give_way := mix a.give_way b.give_way
        energy := (a.energy + b.energy) * (3/20)
        age := 0, id := nid } := rfl

theorem reproduce_traitsOk (env : Env) (k : ℕ) (a b : Agent) (x y nid : ℕ)
    (ha : traitsOk a) (hb : traitsOk b) : traitsOk (reproduce env k a b x y nid).1 := by
  obtain ⟨a1, a2, a3, a4, a5, a6, a7, a8, a9, a10, a11, a12, a13, a14⟩ := ha
  obtain ⟨b1, b2, b3, b4, b5, b6, b7, b8, b9, b10, b11, b12, b13, b14⟩ := hb
  rw [reproduce_fst]
  exact ⟨(mix_mem _ _ a1 a2 b1 b2).1, (mix_mem _ _ a1 a2 b1 b2).2,
    (mix_mem _ _ a3 a4 b3 b4).1, (mix_mem _ _ a3 a4 b3 b4).2,
    (mix_mem _ _ a5 a6 b5 b6).1, (mix_mem _ _ a5 a6 b5 b6).2,
    (mix_mem _ _ a7 a8 b7 b8).1, (mix_mem _ _ a7 a8 b7 b8).2,
    (mix_mem _ _ a9 a10 b9 b10).1, (mix_mem _ _ a9 a10 b9 b10).2,
    (mix_mem _ _ a11 a12 b11 b12).1, (mix_mem _ _ a11 a12 b11 b12).2,
    (mix_mem _ _ a13 a14 b13 b14).1, (mix_mem _ _ a13 a14 b13 b14).2⟩

/-! ## Grid lemmas -/

/-- Well-formed `W × H` grid: `W` columns of height `H`. -/
def GridWF (W H : ℕ) (g : Grid) : Prop :=
  g.length = W ∧ ∀ c ∈ g, c.length = H

instance (W H : ℕ) (g : Grid) : Decidable (GridWF W H g) := by
  unfold GridWF; infer_instance

theorem GridWF.gridSet {W H : ℕ} {g : Grid} (hg : GridWF W H g) (x y : ℕ) (v : Option ℕ) :
    GridWF W H (gridSet g x y v) := by
  obtain ⟨hlen, hcols⟩ := hg
  by_cases hx : x < g.length
  · refine ⟨by simpa [PixeLife.gridSet] using hlen, fun c hc => ?_⟩
    rcases List.mem_or_eq_of_mem_set hc with h | rfl
    · exact hcols _ h
    · rw [List.length_set, List.getElem?_eq_getElem hx]
      simp only [Option.getD_some]
      exact hcols _ (List.getElem_mem hx)
  · rw [PixeLife.gridSet, List.set_eq_of_length_le (by omega)]
    exact ⟨hlen, hcols⟩

theorem gridGet_oob {W H : ℕ} {g : Grid} (hg : GridWF W H g) {x y : ℕ}
    (h : W ≤ x ∨ H ≤ y) : gridGet g x y = none := by
  obtain ⟨hlen, hcols⟩ := hg
  rcases h with h | h
  · unfold gridGet
    rw [List.getElem?_eq_none (by omega)]
    rfl
  · unfold gridGet
    rcases hx : g[x]? with _ | col
    · rfl
    · simp only [Option.some_bind]
      have hc : col ∈ g := by
        have := List.getElem?_eq_some_iff.1 hx
        obtain ⟨hlt, hcc⟩ := this
        exact hcc ▸ List.getElem_mem hlt
      rw [List.getElem?_eq_none (by rw [hcols _ hc]; omega)]
      rfl

theorem gridGet_set_self {W H : ℕ} {g : Grid} (hg : GridWF W H g) {x y : ℕ}
    (hx : x < W) (hy : y < H) (v : Option ℕ) : gridGet (gridSet g x y v) x y = v := by
  obtain ⟨hlen, hcols⟩ := hg
  have hxl : x < g.length := by omega
  unfold gridGet gridSet
  rw [List.getElem?_set_self (by simpa using hxl)]
  simp only [Option.some_bind, List.getElem?_eq_getElem hxl, Option.getD_some]
  rw [List.getElem?_set_self (by rw [hcols _ (List.getElem_mem hxl)]; omega)]
  rfl

theorem gridGet_set_ne {g : Grid} {x y x' y' : ℕ}
    (h : x' ≠ x ∨ y' ≠ y) (v : Option ℕ) :
    gridGet (gridSet g x y v) x' y' = gridGet g x' y' := by
  by_cases hx : x' = x
  · subst hx
    rcases h with h | hy
    · exact absurd rfl h
    · by_cases hxl : x' < g.length
      · unfold gridGet gridSet
        rw [List.getElem?_set_self (by simpa using hxl)]
        simp only [Option.some_bind, List.getElem?_eq_getElem hxl, Option.getD_some]
        rw [List.getElem?_set_ne (show y ≠ y' from fun hh => hy hh.symm)]
      · unfold gridGet gridSet
        rw [List.set_eq_of_length_le (by omega)]
  · unfold gridGet gridSet
    rw [List.getElem?_set_ne (fun hh => hx hh.symm)]

/-! ## Store lemmas -/

theorem lookupAgent_eq_some {l : List Agent} {i : ℕ} {a : Agent}
    (h : lookupAgent l i = some a) : a ∈ l ∧ a.id = i := by
  refine ⟨List.mem_of_find?_eq_some h, ?_⟩
  have := List.find?_some h
  simpa using this

theorem lookupAgent_of_mem {l : List Agent} {a : Agent}
    (hn : (idsOf l).Nodup) (ha : a ∈ l) : lookupAgent l a.id = some a := by
  induction l with
  | nil => cases ha
  | cons b rest ih =>
    rcases List.mem_cons.1 ha with h | ha'
    · subst h
      unfold lookupAgent
      rw [List.find?_cons_of_pos _ (by simp)]
    · have hne : b.id ≠ a.id := by
        intro hh
        have : a.id ∈ rest.map Agent.id := List.mem_map_of_mem _ ha'
        rw [← hh] at this
        exact (List.nodup_cons.1 hn).1 this
      unfold lookupAgent
      rw [List.find?_cons_of_neg _ (by simpa using hne)]
      exact ih (List.nodup_cons.1 hn).2 ha'

theorem idsOf_updAgent {l : List Agent} {i : ℕ} {f : Agent → Agent}
    (h : ∀ b ∈ l, b.id = i → (f b).id = b.id) : idsOf (updAgent l i f) = idsOf l := by
  unfold idsOf updAgent
  rw [List.map_map]
  refine List.map_congr_left fun a hal => ?_
  by_cases ha : a.id = i
  · simp [ha, h a hal ha]
  · simp [ha]

theorem mem_updAgent_of_ne {l : List Agent} {i : ℕ} {f : Agent → Agent} {a : Agent}
    (ha : a ∈ l) (hne : a.id ≠ i) : a ∈ updAgent l i f := by
  have : (if a.id = i then f a else a) ∈ updAgent l i f := List.mem_map_of_mem _ ha
  rwa [if_neg hne] at this

theorem mem_updAgent_self {l : List Agent} {i : ℕ} {f : Agent → Agent} {a : Agent}
    (ha : a ∈ l) (heq : a.id = i) : f a ∈ updAgent l i f := by
  have : (if a.id = i then f a else a) ∈ updAgent l i f := List.mem_map_of_mem _ ha
  rwa [if_pos heq] at this

theorem mem_updAgent_elim {l : List Agent} {i : ℕ} {f : Agent → Agent} {b : Agent}
    (hb : b ∈ updAgent l i f) : ∃ a ∈ l, b = if a.id = i then f a else a := by
  obtain ⟨a, ha, hab⟩ := List.mem_map.1 hb
  exact ⟨a, ha, hab.symm⟩

theorem eraseById_sublist (l : List Agent) (i : ℕ) : (eraseById l i).Sublist l := by
  induction l with
  | nil => simp [eraseById]
  | cons a rest ih =>
    by_cases h : a.id = i
    · simp only [eraseById, if_pos h]
      exact List.sublist_cons_self a rest
    · simp only [eraseById, if_neg h]
      exact ih.cons₂ a

theorem mem_eraseById_of_ne {l : List Agent} {i : ℕ} {a : Agent}
    (ha : a ∈ l) (hne : a.id ≠ i) : a ∈ eraseById l i := by
  induction l with
  | nil => cases ha
  | cons b rest ih =>
    rcases List.mem_cons.1 ha with h | ha'
    · subst h
      simp only [eraseById, if_neg hne]
      exact List.mem_cons_self _ _
    · by_cases h : b.id = i
      · simp only [eraseById, if_pos h]
        exact ha'
      · simp only [eraseById, if_neg h]
        exact List.mem_cons_of_mem _ (ih ha')

theorem mem_eraseById_ne {l : List Agent} {i : ℕ} {b : Agent}
    (hn : (idsOf l).Nodup) (hb : b ∈ eraseById l i) : b.id ≠ i := by
  induction l with
  | nil => cases hb
  | cons a rest ih =>
    by_cases h : a.id = i
    · rw [eraseById, if_pos h] at hb
      intro hbi
      have : b.id ∈ rest.map Agent.id := List.mem_map_of_mem _ hb
      rw [hbi, ← h] at this
      exact (List.nodup_cons.1 hn).1 this
    · rw [eraseById, if_neg h] at hb
      rcases List.mem_cons.1 hb with rfl | hb'
      · exact h
      · exact ih (List.nodup_cons.1 hn).2 hb'

theorem mem_idsOf {l : List Agent} {i : ℕ} : i ∈ idsOf l ↔ ∃ a ∈ l, a.id = i := by
  simp [idsOf]

/-! ## Neighborhood lemmas -/

theorem mem_neighborsList {W H x y : ℕ} {p : ℕ × ℕ}
    (hp : p ∈ neighborsList W H x y) : p.1 < W ∧ p.2 < H := by
  obtain ⟨d, _, hd⟩ := List.mem_filterMap.1 hp
  by_cases hc : 0 ≤ (x : ℤ) + d.1 ∧ (x : ℤ) + d.1 < (W : ℤ) ∧
      0 ≤ (y : ℤ) + d.2 ∧ (y : ℤ) + d.2 < (H : ℤ)
  · rw [if_pos hc] at hd
    obtain ⟨h1, h2, h3, h4⟩ := hc
    cases hd
    constructor <;> simp <;> omega
  · rw [if_neg hc] at hd
    cases hd

theorem firstEmptyNeighbor_spec {g : Grid} {W H x y : ℕ} {p : ℕ × ℕ}
    (h : firstEmptyNeighbor g W H x y = some p) :
    p ∈ neighborsList W H x y ∧ gridGet g p.1 p.2 = none := by
  refine ⟨List.mem_of_find?_eq_some h, ?_⟩
  have := List.find?_some h
  simpa [Option.isNone_iff_eq_none] using this

/-! ## The grid/store coherence invariant

The central correctness property: every live agent's cell references it,
every occupied cell's occupant is a live agent stored at exactly those
coordinates, and ids are unique. -/

def Coherent (W H : ℕ) (g : Grid) (l : List Agent) : Prop :=
  GridWF W H g ∧
  (idsOf l).Nodup ∧
  (∀ a ∈ l, a.x < W ∧ a.y < H ∧ gridGet g a.x a.y = some a.id) ∧
  (∀ x y i, gridGet g x y = some i → ∃ a, a ∈ l ∧ a.id = i ∧ a.x = x ∧ a.y = y)

theorem Coherent.id_inj {W H : ℕ} {g : Grid} {l : List Agent} (hc : Coherent W H g l)
    {a b : Agent} (ha : a ∈ l) (hb : b ∈ l) (h : a.id = b.id) : a = b :=
  List.inj_on_of_nodup_map hc.2.1 ha hb h

theorem Coherent.pos_inj {W H : ℕ} {g : Grid} {l : List Agent} (hc : Coherent W H g l)
    {a b : Agent} (ha : a ∈ l) (hb : b ∈ l) (hx : a.x = b.x) (hy : a.y = b.y) : a = b := by
  have h1 := (hc.2.2.1 a ha).2.2
  have h2 := (hc.2.2.1 b hb).2.2
  rw [hx, hy, h2] at h1
  have h3 : b.id = a.id := by simpa using h1
  exact hc.id_inj ha hb h3.symm

/-- A pure field update (same id, same position) of one agent preserves
coherence. -/
theorem Coherent.upd {W H : ℕ} {g : Grid} {l : List Agent} (hc : Coherent W H g l)
    (i : ℕ) {f : Agent → Agent}
    (hf : ∀ b ∈ l, b.id = i → (f b).id = b.id ∧ (f b).x = b.x ∧ (f b).y = b.y) :
    Coherent W H g (updAgent l i f) := by
  obtain ⟨hwf, hnd, hpos, hgrid⟩ := hc
  refine ⟨hwf, by rwa [idsOf_updAgent fun b hbm hb => (hf b hbm hb).1], ?_, ?_⟩
  · intro b' hb'
    obtain ⟨c, hcm, rfl⟩ := mem_updAgent_elim hb'
    by_cases hci : c.id = i
    · rw [if_pos hci]
      obtain ⟨h1, h2, h3⟩ := hf c hcm hci
      rw [h2, h3, h1]
      exact hpos c hcm
    · rw [if_neg hci]
      exact hpos c hcm
  · intro x y i' hxy
    obtain ⟨c, hcm, hid, hcx, hcy⟩ := hgrid x y i' hxy
    by_cases hci : c.id = i
    · obtain ⟨h1, h2, h3⟩ := hf c hcm hci
      exact ⟨f c, mem_updAgent_self hcm hci, by rw [h1, hid], by rw [h2, hcx], by rw [h3, hcy]⟩
    · exact ⟨c, mem_updAgent_of_ne hcm hci, hid, hcx, hcy⟩

/-- Relocating agent `a` to the empty in-bounds cell `(tx, ty)` (clear
old cell, update stored position, occupy target) preserves coherence. -/
theorem Coherent.move {W H : ℕ} {g : Grid} {l : List Agent} (hc : Coherent W H g l)
    {a : Agent} (ha : a ∈ l) {tx ty : ℕ} (htx : tx < W) (hty : ty < H)
    (hemp : gridGet g tx ty = none) {f : Agent → Agent}
    (hf : ∀ b ∈ l, b.id = a.id → (f b).id = b.id ∧ (f b).x = tx ∧ (f b).y = ty) :
    Coherent W H (gridSet (gridSet g a.x a.y none) tx ty (some a.id))
      (updAgent l a.id f) := by
  obtain ⟨hwf, hnd, hpos, hgrid⟩ := hc
  obtain ⟨hax, hay, hacell⟩ := hpos a ha
  have hne_cell : a.x ≠ tx ∨ a.y ≠ ty := by
    by_contra hcon
    push_neg at hcon
    rw [hcon.1, hcon.2, hemp] at hacell
    cases hacell
  have hwf1 : GridWF W H (gridSet g a.x a.y none) := hwf.gridSet _ _ _
  have hwf2 : GridWF W H (gridSet (gridSet g a.x a.y none) tx ty (some a.id)) :=
    hwf1.gridSet _ _ _
  have hget_t : gridGet (gridSet (gridSet g a.x a.y none) tx ty (some a.id)) tx ty =
      some a.id := gridGet_set_self hwf1 htx hty _
  refine ⟨hwf2, by rwa [idsOf_updAgent fun b hbm hb => (hf b hbm hb).1], ?_, ?_⟩
  · intro b' hb'
    obtain ⟨c, hcm, rfl⟩ := mem_updAgent_elim hb'
    by_cases hci : c.id = a.id
    · rw [if_pos hci]
      obtain ⟨h1, h2, h3⟩ := hf c hcm hci
      rw [h1, h2, h3, hci]
      exact ⟨htx, hty, hget_t⟩
    · rw [if_neg hci]
      obtain ⟨hcx, hcy, hccell⟩ := hpos c hcm
      have hct : c.x ≠ tx ∨ c.y ≠ ty := by
        by_contra hcon
        push_neg at hcon
        rw [hcon.1, hcon.2, hemp] at hccell
        cases hccell
      have hca : c.x ≠ a.x ∨ c.y ≠ a.y := by
        by_contra hcon
        push_neg at hcon
        exact hci (congrArg Agent.id
          (Coherent.pos_inj ⟨hwf, hnd, hpos, hgrid⟩ hcm ha hcon.1 hcon.2))
      rw [gridGet_set_ne (by tauto), gridGet_set_ne (by tauto)]
      exact ⟨hcx, hcy, hccell⟩
  · intro x y i' hxy
    by_cases h1 : x = tx ∧ y = ty
    · obtain ⟨rfl, rfl⟩ := h1
      rw [hget_t] at hxy
      obtain ⟨h1, h2, h3⟩ := hf a ha rfl
      exact ⟨f a, mem_updAgent_self ha rfl,
        by rw [h1]; exact (Option.some.injEq _ _ ▸ hxy : a.id = i'), h2, h3⟩
    · rw [gridGet_set_ne (by tauto)] at hxy
      by_cases h2 : x = a.x ∧ y = a.y
      · obtain ⟨rfl, rfl⟩ := h2
        rw [gridGet_set_self hwf hax hay] at hxy
        cases hxy
      · rw [gridGet_set_ne (by tauto)] at hxy
        obtain ⟨c, hcm, hid, hcx, hcy⟩ := hgrid x y i' hxy
        have hci : c.id ≠ a.id := by
          intro hh
          have : c = a := Coherent.id_inj ⟨hwf, hnd, hpos, hgrid⟩ hcm ha hh
          subst this
          exact h2 ⟨hcx.symm, hcy.symm⟩
        exact ⟨c, mem_updAgent_of_ne hcm hci, hid, hcx, hcy⟩

/-- Dropping agent `d` from the store while clearing its cell preserves
coherence. -/
theorem Coherent.kill {W H : ℕ} {g : Grid} {l : List Agent} (hc : Coherent W H g l)
    {d : Agent} (hd : d ∈ l) :
    Coherent W H (gridSet g d.x d.y none) (eraseById l d.id) := by
  obtain ⟨hwf, hnd, hpos, hgrid⟩ := hc
  obtain ⟨hdx, hdy, hdcell⟩ := hpos d hd
  refine ⟨hwf.gridSet _ _ _, ?_, ?_, ?_⟩
  · exact ((eraseById_sublist l d.id).map Agent.id).nodup hnd
  · intro b hb
    have hbl : b ∈ l := (eraseById_sublist l d.id).subset hb
    have hbid : b.id ≠ d.id := mem_eraseById_ne hnd hb
    have hbd : b.x ≠ d.x ∨ b.y ≠ d.y := by
      by_contra hcon
      push_neg at hcon
      exact hbid (congrArg Agent.id
        (Coherent.pos_inj ⟨hwf, hnd, hpos, hgrid⟩ hbl hd hcon.1 hcon.2))
    obtain ⟨hbx, hby, hbcell⟩ := hpos b hbl
    rw [gridGet_set_ne (by tauto)]
    exact ⟨hbx, hby, hbcell⟩
  · intro x y i' hxy
    by_cases h1 : x = d.x ∧ y = d.y
    · obtain ⟨rfl, rfl⟩ := h1
      rw [gridGet_set_self hwf hdx hdy] at hxy
      cases hxy
    · rw [gridGet_set_ne (by tauto)] at hxy
      obtain ⟨c, hcm, hid, hcx, hcy⟩ := hgrid x y i' hxy
      have hci : c.id ≠ d.id := by
        intro hh
        have : c = d := Coherent.id_inj ⟨hwf, hnd, hpos, hgrid⟩ hcm hd hh
        subst this
        exact h1 ⟨hcx.symm, hcy.symm⟩
      exact ⟨c, mem_eraseById_of_ne hcm hci, hid, hcx, hcy⟩

/-- Appending a fresh agent into an empty in-bounds cell preserves
coherence. -/
theorem Coherent.add {W H : ℕ} {g : Grid} {l : List Agent} (hc : Coherent W H g l)
    {c : Agent} (hx : c.x < W) (hy : c.y < H)
    (hemp : gridGet g c.x c.y = none) (hfresh : c.id ∉ idsOf l) :
    Coherent W H (gridSet g c.x c.y (some c.id)) (l ++ [c]) := by
  obtain ⟨hwf, hnd, hpos, hgrid⟩ := hc
  refine ⟨hwf.gridSet _ _ _, ?_, ?_, ?_⟩
  · rw [idsOf, List.map_append, List.nodup_append]
    exact ⟨hnd, List.nodup_singleton _, by simpa [idsOf] using hfresh⟩
  · intro b hb
    rcases List.mem_append.1 hb with hbl | hbc
    · obtain ⟨hbx, hby, hbcell⟩ := hpos b hbl
      have hbd : b.x ≠ c.x ∨ b.y ≠ c.y := by
        by_contra hcon
        push_neg at hcon
        rw [hcon.1, hcon.2, hemp] at hbcell
        cases hbcell
      rw [gridGet_set_ne (by tauto)]
      exact ⟨hbx, hby, hbcell⟩
    · rw [List.mem_singleton.1 hbc]
      exact ⟨hx, hy, gridGet_set_self hwf hx hy _⟩
  · intro x y i' hxy
    by_cases h1 : x = c.x ∧ y = c.y
    · obtain ⟨rfl, rfl⟩ := h1
      rw [gridGet_set_self hwf hx hy] at hxy
      exact ⟨c, List.mem_append_right _ (List.mem_singleton_self _),
        (Option.some.injEq _ _ ▸ hxy : c.id = i'), rfl, rfl⟩
    · rw [gridGet_set_ne (by tauto)] at hxy
      obtain ⟨a, ham, hid, hax, hay⟩ := hgrid x y i' hxy
      exact ⟨a, List.mem_append_left _ ham, hid, hax, hay⟩

/-! ## The sweep invariant -/

/-- The invariant carried through one tick's sweep: the grid and the
live store cohere, all live ids are below the id counter, and every
queued child is in bounds, newborn (age 0), and carries a fresh id. -/
def SCore (W H : ℕ) (g : Grid) (l toAdd : List Agent) (nid : ℕ) : Prop :=
  Coherent W H g l ∧
  (∀ i ∈ idsOf l, i < nid) ∧
  (∀ c ∈ toAdd, c.x < W ∧ c.y < H ∧ c.age = 0 ∧ c.id < nid ∧ c.id ∉ idsOf l) ∧
  (idsOf toAdd).Nodup

def SInv (W H : ℕ) (s : SState) : Prop :=
  SCore W H s.grid s.agents s.toAdd s.nextId

theorem SCore.updC {W H : ℕ} {g : Grid} {l toAdd : List Agent} {nid : ℕ}
    (h : SCore W H g l toAdd nid) (i : ℕ) {f : Agent → Agent}
    (hf : ∀ b ∈ l, b.id = i → (f b).id = b.id ∧ (f b).x = b.x ∧ (f b).y = b.y) :
    SCore W H g (updAgent l i f) toAdd nid := by
  obtain ⟨hc, hbound, hadd, hnd⟩ := h
  have hids : idsOf (updAgent l i f) = idsOf l :=
    idsOf_updAgent fun b hbm hb => (hf b hbm hb).1
  exact ⟨hc.upd i hf, by rw [hids]; exact hbound,
    fun c hcm => by rw [hids]; exact hadd c hcm, hnd⟩

theorem SCore.moveC {W H : ℕ} {g : Grid} {l toAdd : List Agent} {nid : ℕ}
    (h : SCore W H g l toAdd nid) {a : Agent} (ha : a ∈ l) {tx ty : ℕ}
    (htx : tx < W) (hty : ty < H) (hemp : gridGet g tx ty = none) {f : Agent → Agent}
    (hf : ∀ b ∈ l, b.id = a.id → (f b).id = b.id ∧ (f b).x = tx ∧ (f b).y = ty) :
    SCore W H (gridSet (gridSet g a.x a.y none) tx ty (some a.id))
      (updAgent l a.id f) toAdd nid := by
  obtain ⟨hc, hbound, hadd, hnd⟩ := h
  have hids : idsOf (updAgent l a.id f) = idsOf l :=
    idsOf_updAgent fun b hbm hb => (hf b hbm hb).1
  exact ⟨hc.move ha htx hty hemp hf, by rw [hids]; exact hbound,
    fun c hcm => by rw [hids]; exact hadd c hcm, hnd⟩

theorem SCore.addChild {W H : ℕ} {g : Grid} {l toAdd : List Agent} {nid : ℕ}
    (h : SCore W H g l toAdd nid) {c : Agent}
    (hx : c.x < W) (hy : c.y < H) (hage : c.age = 0) (hid : c.id = nid) :
    SCore W H g l (toAdd ++ [c]) (nid + 1) := by
  obtain ⟨hc, hbound, hadd, hnd⟩ := h
  refine ⟨hc, fun i hi => Nat.lt_succ_of_lt (hbound i hi), ?_, ?_⟩
  · intro c' hc'
    rcases List.mem_append.1 hc' with hc' | hc'
    · obtain ⟨q1, q2, q3, q4, q5⟩ := hadd c' hc'
      exact ⟨q1, q2, q3, Nat.lt_succ_of_lt q4, q5⟩
    · rw [List.mem_singleton.1 hc']
      refine ⟨hx, hy, hage, by omega, fun hmem => ?_⟩
      have := hbound _ hmem
      omega
  · rw [idsOf, List.map_append, List.nodup_append]
    refine ⟨hnd, List.nodup_singleton _, ?_⟩
    intro j hj hj'
    have hj2 : j = c.id := by simpa [idsOf] using hj'
    obtain ⟨c', hc'm, hc'e⟩ := List.mem_map.1 hj
    have h4 := (hadd c' hc'm).2.2.2.1
    omega

/-- Generic `foldl` invariant preservation. -/
theorem foldl_inv {α β : Type _} (P : β → Prop) (f : β → α → β)
    (hf : ∀ b a, P b → P (f b a)) : ∀ (xs : List α) (b : β), P b → P (xs.foldl f b) := by
  intro xs
  induction xs with
  | nil => exact fun b h => h
  | cons x rest ih => exact fun b h => ih _ (hf b x h)

theorem idxBelow_lt {u : ℚ} {n : ℕ} (h : 0 < n) : idxBelow u n < n :=
  Nat.mod_lt _ h

theorem getD_mem_of_lt {α : Type _} (l : List α) {n : ℕ} (h : n < l.length) (d : α) :
    l.getD n d ∈ l := by
  rw [List.getD_eq_getElem?_getD, List.getElem?_eq_getElem h]
  exact List.getElem_mem h

/-! ## Shuffle is a permutation -/

theorem insertAt_perm {α : Type _} (x : α) : ∀ (n : ℕ) (l : List α),
    (insertAt x n l).Perm (x :: l)
  | _, [] => by simp [insertAt]
  | 0, a :: l => by simp [insertAt]
  | n + 1, a :: l => by
    simpa [insertAt] using ((insertAt_perm x n l).cons a).trans (List.Perm.swap x a l)

theorem shuffleAgents_perm_aux (env : Env) :
    ∀ (l acc : List Agent) (k : ℕ),
      (l.foldl (fun p a =>
        (insertAt a (idxBelow (env.stream p.2) (p.1.length + 1)) p.1, p.2 + 1))
        (acc, k)).1.Perm (l ++ acc) := by
  intro l
  induction l with
  | nil => intro acc k; simp
  | cons a rest ih =>
    intro acc k
    refine ((ih _ _).trans ?_)
    refine (List.Perm.append_left rest (insertAt_perm a _ acc)).trans ?_
    exact List.perm_middle.trans (by simp)

/-- `random.shuffle` produces a permutation of the live list. -/
theorem shuffleAgents_perm (env : Env) (l : List Agent) (k : ℕ) :
    (shuffleAgents env l k).1.Perm l := by
  have := shuffleAgents_perm_aux env l [] k
  simpa [shuffleAgents] using this

/-- Coherence only depends on the store up to permutation. -/
theorem Coherent.perm {W H : ℕ} {g : Grid} {l l' : List Agent}
    (hc : Coherent W H g l) (hp : l.Perm l') : Coherent W H g l' := by
  obtain ⟨hwf, hnd, hpos, hgrid⟩ := hc
  refine ⟨hwf, ((hp.map Agent.id).nodup_iff).1 hnd, ?_, ?_⟩
  · exact fun a ha => hpos a (hp.mem_iff.2 ha)
  · intro x y i hxy
    obtain ⟨c, hcm, hrest⟩ := hgrid x y i hxy
    exact ⟨c, hp.mem_iff.1 hcm, hrest⟩

/-! ## The sweep preserves the invariant -/

theorem SCore.updE {W H : ℕ} {g : Grid} {l toAdd : List Agent} {nid : ℕ}
    (h : SCore W H g l toAdd nid) (i : ℕ) (f : Agent → Agent)
    (hf : ∀ b ∈ l, b.id = i → (f b).id = b.id ∧ (f b).x = b.x ∧ (f b).y = b.y) :
    SCore W H g (updAgent l i f) toAdd nid :=
  SCore.updC h i hf

theorem SCore.moveE {W H : ℕ} {g : Grid} {l toAdd : List Agent} {nid : ℕ}
    (h : SCore W H g l toAdd nid) {a : Agent} (ha : a ∈ l) {tx ty : ℕ}
    (htx : tx < W) (hty : ty < H) (hemp : gridGet g tx ty = none) (f : Agent → Agent)
    (hf : ∀ b ∈ l, b.id = a.id → (f b).id = b.id ∧ (f b).x = tx ∧ (f b).y = ty) :
    SCore W H (gridSet (gridSet g a.x a.y none) tx ty (some a.id))
      (updAgent l a.id f) toAdd nid :=
  SCore.moveC h ha htx hty hemp hf

theorem resolveFight_SInv {W H : ℕ} (env : Env) {s : SState} (a occ : Agent)
    (h : SInv W H s) : SInv W H (resolveFight env s a occ) := by
  unfold resolveFight
  dsimp only
  split
  · exact SCore.updE h a.id _ (fun b _ _ => ⟨rfl, rfl, rfl⟩)
  · exact h

theorem interact_SInv {W H : ℕ} (env : Env) {s : SState} {a occ : Agent} (tx ty : ℕ)
    (h : SInv W H s) (ha : a ∈ s.agents) (hocc : occ ∈ s.agents)
    (hne : a.id ≠ occ.id) (htx : tx < W) (hty : ty < H) :
    SInv W H (interact env W H s a occ tx ty) := by
  unfold interact
  dsimp only
  split
  · -- agent gives way
    exact SCore.updE h a.id _ (fun b _ _ => ⟨rfl, rfl, rfl⟩)
  split
  · -- occupant gives way
    split
    next nx ny hfe =>
      obtain ⟨hmem, hemp⟩ := firstEmptyNeighbor_spec hfe
      obtain ⟨hnx, hny⟩ := mem_neighborsList hmem
      have h2 : SInv W H (doMoveOccupant { s with k := s.k + 2 } occ nx ny) :=
        SCore.moveE h hocc hnx hny hemp _ (fun b _ _ => ⟨rfl, rfl, rfl⟩)
      split
      next hemp2 =>
        exact SCore.moveE h2 (mem_updAgent_of_ne ha hne) htx hty hemp2 _
          (fun b _ _ => ⟨rfl, rfl, rfl⟩)
      · exact h2
    · exact h
  · -- fight or reproduce
    split
    · split
      next nx ny hfe =>
        obtain ⟨hmem, hemp⟩ := firstEmptyNeighbor_spec hfe
        obtain ⟨hnx, hny⟩ := mem_neighborsList hmem
        have h3 :=
          SCore.updE (SCore.updE h a.id
              (fun b => { b with energy := b.energy - REPRODUCE_COST })
              (fun b _ _ => ⟨rfl, rfl, rfl⟩))
            occ.id (fun b => { b with energy := b.energy - REPRODUCE_COST / (3/2) })
            (fun b _ _ => ⟨rfl, rfl, rfl⟩)
        have hcore := try_mutate_core env
          (reproduce env (s.k + 2 + 1) a occ nx ny s.nextId).2
          (reproduce env (s.k + 2 + 1) a occ nx ny s.nextId).1
        refine SCore.addChild h3 ?_ ?_ ?_ ?_
        · rw [hcore.2.1, reproduce_fst]; exact hnx
        · rw [hcore.2.2.1, reproduce_fst]; exact hny
        · rw [hcore.2.2.2.1, reproduce_fst]
        · rw [hcore.1, reproduce_fst]
      next hfe =>
        exact resolveFight_SInv env a occ h
    · exact resolveFight_SInv env a occ h

theorem moveBlock_SInv {W H : ℕ} (env : Env) (s : SState) (a : Agent)
    (h : SInv W H s) (ha : a ∈ s.agents) : SInv W H (moveBlock env W H s a) := by
  unfold moveBlock
  dsimp only
  split
  · -- moving this tick
    split
    · -- stayed in place
      exact h
    next hne_t =>
      have hchoice :
          ((a.x, a.y) :: neighborsList W H a.x a.y).getD
            (idxBelow (env.stream (s.k + 1))
              ((a.x, a.y) :: neighborsList W H a.x a.y).length) (a.x, a.y) ∈
            (a.x, a.y) :: neighborsList W H a.x a.y :=
        getD_mem_of_lt _ (idxBelow_lt (by simp)) _
      have hmemn := (List.mem_cons.1 hchoice).resolve_left hne_t
      obtain ⟨htx, hty⟩ := mem_neighborsList hmemn
      split
      next heq =>
        exact SCore.moveE h ha htx hty heq _ (fun b _ _ => ⟨rfl, rfl, rfl⟩)
      next occId heq =>
        split
        next occ hlook =>
          obtain ⟨hoccm, hoccid⟩ := lookupAgent_eq_some hlook
          obtain ⟨b, hbm, hbid, hbx, hby⟩ := h.1.2.2.2 _ _ _ heq
          have hbocc : b = occ := h.1.id_inj hbm hoccm (hbid.trans hoccid.symm)
          rw [hbocc] at hbx hby
          have hne : a.id ≠ occ.id := by
            intro haid
            have hao : a = occ := h.1.id_inj ha hoccm haid
            exact hne_t (Prod.ext_iff.2
              ⟨hbx.symm.trans (congrArg Agent.x hao).symm,
               hby.symm.trans (congrArg Agent.y hao).symm⟩)
          exact interact_SInv env _ _ h ha hoccm hne htx hty
        · exact h
  · exact h

theorem processAgent_SInv {W H : ℕ} (env : Env) (s : SState) (i : ℕ)
    (h : SInv W H s) : SInv W H (processAgent env W H s i) := by
  unfold processAgent
  dsimp only
  split
  · exact h
  next a0 hlook =>
    obtain ⟨ha0m, ha0id⟩ := lookupAgent_eq_some hlook
    split
    · split <;> exact h
    next hpos =>
      have h1 := SCore.updE h i
          (fun _ => { a0 with age := a0.age + 1, energy := a0.energy - step_energy_cost a0 })
          (fun b hbm hb => by
            have hba : b = a0 := h.1.id_inj hbm ha0m (hb.trans ha0id.symm)
            subst hba
            exact ⟨rfl, rfl, rfl⟩)
      split
      · exact h1
      next hpos2 =>
        have h2 := moveBlock_SInv env
          { s with agents := updAgent s.agents i fun _ =>
              { a0 with age := a0.age + 1, energy := a0.energy - step_energy_cost a0 } }
          _ h1 (mem_updAgent_self ha0m ha0id)
        split <;> exact h2

/-! ## The commit phase preserves coherence -/

theorem commitRemovals_props {W H : ℕ} : ∀ (r : List ℕ) (l : List Agent) (g : Grid),
    Coherent W H g l →
    Coherent W H (commitRemovals r l g).2 (commitRemovals r l g).1 ∧
    ((commitRemovals r l g).1).Sublist l := by
  intro r
  induction r with
  | nil => exact fun l g hc => ⟨hc, List.Sublist.refl _⟩
  | cons i rest ih =>
    intro l g hc
    simp only [commitRemovals]
    split
    next d hlook =>
      obtain ⟨hdm, hdid⟩ := lookupAgent_eq_some hlook
      have hcell : gridGet g d.x d.y = some i := by
        rw [(hc.2.2.1 d hdm).2.2, hdid]
      rw [if_pos hcell]
      have hkill : Coherent W H (gridSet g d.x d.y none) (eraseById l i) :=
        hdid ▸ hc.kill hdm
      obtain ⟨h1, h2⟩ := ih _ _ hkill
      exact ⟨h1, h2.trans (eraseById_sublist l i)⟩
    next hlook =>
      exact ih _ _ hc

theorem commitAdds_props {W H nid : ℕ} : ∀ (cs l : List Agent) (g : Grid),
    Coherent W H g l → (∀ i ∈ idsOf l, i < nid) →
    (∀ c ∈ cs, c.x < W ∧ c.y < H ∧ c.id < nid ∧ c.id ∉ idsOf l) →
    (idsOf cs).Nodup →
    Coherent W H (commitAdds cs l g).2 (commitAdds cs l g).1 ∧
    (∀ i ∈ idsOf (commitAdds cs l g).1, i < nid) := by
  intro cs
  induction cs with
  | nil => exact fun l g hc hb _ _ => ⟨hc, hb⟩
  | cons c rest ih =>
    intro l g hc hb hcs hnd
    simp only [commitAdds]
    have hcid_rest : c.id ∉ idsOf rest := (List.nodup_cons.1 hnd).1
    split
    next hemp =>
      obtain ⟨q1, q2, q3, q4⟩ := hcs c (List.mem_cons_self _ _)
      refine ih _ _ (hc.add q1 q2 hemp q4) ?_ ?_ (List.nodup_cons.1 hnd).2
      · intro j hj
        rw [idsOf, List.map_append] at hj
        rcases List.mem_append.1 hj with hj | hj
        · exact hb j hj
        · have : j = c.id := by simpa using hj
          omega
      · intro c' hc'
        obtain ⟨p1, p2, p3, p4⟩ := hcs c' (List.mem_cons_of_mem _ hc')
        refine ⟨p1, p2, p3, ?_⟩
        rw [idsOf, List.map_append]
        intro hmem
        rcases List.mem_append.1 hmem with hmem | hmem
        · exact p4 hmem
        · have h5 : c'.id = c.id := by simpa using hmem
          exact hcid_rest (h5 ▸ List.mem_map_of_mem Agent.id hc')
    next =>
      exact ih _ _ hc hb (fun c' h' => hcs c' (List.mem_cons_of_mem _ h'))
        (List.nodup_cons.1 hnd).2

theorem commitAdds_mem : ∀ (cs l : List Agent) (g : Grid) (b : Agent),
    b ∈ (commitAdds cs l g).1 → b ∈ l ∨ b ∈ cs := by
  intro cs
  induction cs with
  | nil => exact fun l g b hb => Or.inl hb
  | cons c rest ih =>
    intro l g b hb
    simp only [commitAdds] at hb
    split at hb
    · rcases ih _ _ _ hb with hb' | hb'
      · rcases List.mem_append.1 hb' with h | h
        · exact Or.inl h
        · exact Or.inr (List.mem_cons.2 (Or.inl (List.mem_singleton.1 h)))
      · exact Or.inr (List.mem_cons_of_mem _ hb')
    · rcases ih _ _ _ hb with hb' | hb'
      · exact Or.inl hb'
      · exact Or.inr (List.mem_cons_of_mem _ hb')

/-! ## The global events preserve coherence -/

theorem meteorCull_inv {W H : ℕ} {l0 : List Agent} (xs ys : List ℕ) :
    ∀ acc : ℕ × List Agent × Grid,
      (Coherent W H acc.2.2 acc.2.1 ∧ acc.2.1.Sublist l0) →
      let res := xs.foldl
        (fun acc x => ys.foldl
          (fun (acc : ℕ × List Agent × Grid) y =>
            match gridGet acc.2.2 x y with
            | some i => (acc.1 + 1, eraseById acc.2.1 i, gridSet acc.2.2 x y none)
            | none => acc)
          acc)
        acc
      Coherent W H res.2.2 res.2.1 ∧ res.2.1.Sublist l0 := by
  refine foldl_inv
    (fun acc : ℕ × List Agent × Grid => Coherent W H acc.2.2 acc.2.1 ∧ acc.2.1.Sublist l0) _
    (fun acc x hacc => ?_) xs
  refine foldl_inv
    (fun acc : ℕ × List Agent × Grid => Coherent W H acc.2.2 acc.2.1 ∧ acc.2.1.Sublist l0) _
    (fun acc y hacc => ?_) ys acc hacc
  obtain ⟨hc, hsub⟩ := hacc
  split
  next i hcell =>
    obtain ⟨d, hdm, hdid, hdx, hdy⟩ := hc.2.2.2 _ _ _ hcell
    have hkill := hc.kill hdm
    rw [hdid, hdx, hdy] at hkill
    exact ⟨hkill, ((hdid ▸ eraseById_sublist acc.2.1 d.id :
      (eraseById acc.2.1 i).Sublist acc.2.1)).trans hsub⟩
  next hcell =>
    exact ⟨hc, hsub⟩

theorem meteorEvent_props (env : Env) (w : World) (k : ℕ)
    (hc : Coherent w.width w.height w.grid w.agents) :
    Coherent (meteorEvent env w k).1.width (meteorEvent env w k).1.height
      (meteorEvent env w k).1.grid (meteorEvent env w k).1.agents ∧
    ((meteorEvent env w k).1.agents).Sublist w.agents := by
  unfold meteorEvent
  dsimp only
  exact meteorCull_inv _ _ ((0 : ℕ), w.agents, w.grid) ⟨hc, List.Sublist.refl _⟩

theorem droughtGo_quad (env : Env) : ∀ (l : List Agent) (k : ℕ),
    ((droughtGo env k l).1).map (fun a => (a.id, a.x, a.y, a.age)) =
      l.map (fun a => (a.id, a.x, a.y, a.age)) := by
  intro l
  induction l with
  | nil => intro k; rfl
  | cons a rest ih => intro k; simp [droughtGo, ih]

theorem idsOf_of_quad {l l' : List Agent}
    (hq : l'.map (fun a => (a.id, a.x, a.y, a.age)) = l.map (fun a => (a.id, a.x, a.y, a.age))) :
    idsOf l' = idsOf l := by
  have := congrArg (List.map fun q : ℕ × ℕ × ℕ × ℕ => q.1) hq
  simpa [idsOf, List.map_map, Function.comp] using this

theorem coherent_of_quad {W H : ℕ} {g : Grid} {l l' : List Agent}
    (hq : l'.map (fun a => (a.id, a.x, a.y, a.age)) = l.map (fun a => (a.id, a.x, a.y, a.age)))
    (hc : Coherent W H g l) : Coherent W H g l' := by
  obtain ⟨hwf, hnd, hpos, hgrid⟩ := hc
  refine ⟨hwf, by rw [idsOf_of_quad hq]; exact hnd, ?_, ?_⟩
  · intro a' ha'
    have hmem : (a'.id, a'.x, a'.y, a'.age) ∈ l.map (fun a => (a.id, a.x, a.y, a.age)) := by
      rw [← hq]
      exact List.mem_map_of_mem _ ha'
    obtain ⟨a, ham, hae⟩ := List.mem_map.1 hmem
    have h1 : a.id = a'.id := by
      have := congrArg (fun q : ℕ × ℕ × ℕ × ℕ => q.1) hae
      simpa using this
    have h2 : a.x = a'.x := by
      have := congrArg (fun q : ℕ × ℕ × ℕ × ℕ => q.2.1) hae
      simpa using this
    have h3 : a.y = a'.y := by
      have := congrArg (fun q : ℕ × ℕ × ℕ × ℕ => q.2.2.1) hae
      simpa using this
    obtain ⟨b1, b2, b3⟩ := hpos a ham
    refine ⟨h2 ▸ b1, h3 ▸ b2, ?_⟩
    rw [← h2, ← h3, b3, h1]
  · intro x y i hxy
    obtain ⟨a, ham, hid, hax, hay⟩ := hgrid x y i hxy
    have : (a.id, a.x, a.y, a.age) ∈ l'.map (fun a => (a.id, a.x, a.y, a.age)) := by
      rw [hq]
      exact List.mem_map_of_mem _ ham
    obtain ⟨a', ha'm, ha'e⟩ := List.mem_map.1 this
    have h1 : a'.id = a.id := by
      have := congrArg (fun q : ℕ × ℕ × ℕ × ℕ => q.1) ha'e
      simpa using this
    have h2 : a'.x = a.x := by
      have := congrArg (fun q : ℕ × ℕ × ℕ × ℕ => q.2.1) ha'e
      simpa using this
    have h3 : a'.y = a.y := by
      have := congrArg (fun q : ℕ × ℕ × ℕ × ℕ => q.2.2.1) ha'e
      simpa using this
    exact ⟨a', ha'm, h1.trans hid, h2.trans hax, h3.trans hay⟩

theorem droughtEvent_ids (env : Env) (w : World) (k : ℕ) :
    idsOf (droughtEvent env w k).1.agents = idsOf w.agents :=
  idsOf_of_quad (droughtGo_quad env w.agents k)

theorem droughtEvent_props (env : Env) (w : World) (k : ℕ)
    (hc : Coherent w.width w.height w.grid w.agents) :
    Coherent (droughtEvent env w k).1.width (droughtEvent env w k).1.height
      (droughtEvent env w k).1.grid (droughtEvent env w k).1.agents ∧
    idsOf (droughtEvent env w k).1.agents = idsOf w.agents := by
  unfold droughtEvent
  dsimp only
  have hq := droughtGo_quad env w.agents k
  exact ⟨coherent_of_quad hq hc, idsOf_of_quad hq⟩

/-! ## The whole-world invariant -/

/-- The grid-position consistency invariant of the spec, stated with
bounded quantifiers so that it is decidable on concrete worlds: the grid
is well-shaped, ids are unique, every live agent is referenced by
exactly its own cell, every occupied cell's occupant is live and stored
at the cell's coordinates, and all live ids are below the id counter. -/
def WorldInv (w : World) : Prop :=
  GridWF w.width w.height w.grid ∧
  (idsOf w.agents).Nodup ∧
  (∀ a ∈ w.agents, a.x < w.width ∧ a.y < w.height ∧ gridGet w.grid a.x a.y = some a.id) ∧
  (∀ x ∈ List.range w.width, ∀ y ∈ List.range w.height,
    ∀ i ∈ (gridGet w.grid x y).toList, ∃ a, a ∈ w.agents ∧ a.id = i ∧ a.x = x ∧ a.y = y) ∧
  (∀ a ∈ w.agents, a.id < w.nextId)

instance (w : World) : Decidable (WorldInv w) := by
  unfold WorldInv
  infer_instance

theorem worldInv_iff (w : World) :
    WorldInv w ↔ Coherent w.width w.height w.grid w.agents ∧
      (∀ i ∈ idsOf w.agents, i < w.nextId) := by
  constructor
  · rintro ⟨hwf, hnd, hpos, hgrid, hb⟩
    refine ⟨⟨hwf, hnd, hpos, ?_⟩, ?_⟩
    · intro x y i hxy
      have hx : x < w.width := by
        by_contra hcon
        rw [gridGet_oob hwf (Or.inl (by omega))] at hxy
        cases hxy
      have hy : y < w.height := by
        by_contra hcon
        rw [gridGet_oob hwf (Or.inr (by omega))] at hxy
        cases hxy
      exact hgrid x (List.mem_range.2 hx) y (List.mem_range.2 hy) i (by rw [hxy]; simp)
    · intro i hi
      obtain ⟨a, ham, haid⟩ := mem_idsOf.1 hi
      exact haid ▸ hb a ham
  · rintro ⟨⟨hwf, hnd, hpos, hgrid⟩, hb⟩
    refine ⟨hwf, hnd, hpos, ?_, ?_⟩
    · intro x _ y _ i hi
      rcases hg : gridGet w.grid x y with _ | j
      · rw [hg] at hi
        cases hi
      · rw [hg] at hi
        have : i = j := by simpa using hi
        subst this
        exact hgrid x y i hg
    · exact fun a ham => hb a.id (List.mem_map_of_mem _ ham)

/-- `World.step` preserves the grid-position consistency invariant
(the heart of claim C1): shuffling permutes the store, each agent's turn
preserves the sweep invariant, the deferred commits only clear cells
still referencing their dying agent and only place children into cells
still empty, and both global events preserve coherence. -/
theorem step_preserves_inv (env : Env) (w : World) (k : ℕ) (h : WorldInv w) :
    WorldInv (step env w k).1 := by
  rw [worldInv_iff] at h ⊢
  obtain ⟨hc, hb⟩ := h
  unfold step
  dsimp only
  set sh := shuffleAgents env w.agents k with hsh
  set s0 : SState := ⟨sh.1, w.grid, [], [], 0, w.nextId, sh.2⟩ with hs0def
  set s1 := List.foldl (processAgent env w.width w.height) s0 (List.map Agent.id sh.1)
    with hs1def
  have hperm : sh.1.Perm w.agents := shuffleAgents_perm env w.agents k
  have hc1 : Coherent w.width w.height w.grid sh.1 := hc.perm hperm.symm
  have hb1 : ∀ i ∈ idsOf sh.1, i < w.nextId :=
    fun i hi => hb i ((hperm.map Agent.id).mem_iff.1 hi)
  have hs0 : SInv w.width w.height s0 :=
    ⟨hc1, hb1, fun c hc' => (List.not_mem_nil c hc').elim, List.nodup_nil⟩
  have hs1 : SInv w.width w.height s1 :=
    foldl_inv (SInv w.width w.height) (processAgent env w.width w.height)
      (fun s i hs => processAgent_SInv env s i hs) (List.map Agent.id sh.1) s0 hs0
  obtain ⟨hc2, hsub2⟩ := commitRemovals_props s1.toRemove s1.agents s1.grid hs1.1
  have hb2 : ∀ i ∈ idsOf (commitRemovals s1.toRemove s1.agents s1.grid).1, i < s1.nextId :=
    fun i hi => hs1.2.1 i ((hsub2.map Agent.id).subset hi)
  obtain ⟨hc3, hb3⟩ := commitAdds_props s1.toAdd
    (commitRemovals s1.toRemove s1.agents s1.grid).1
    (commitRemovals s1.toRemove s1.agents s1.grid).2 hc2 hb2
    (fun c hcm =>
      ⟨(hs1.2.2.1 c hcm).1, (hs1.2.2.1 c hcm).2.1, (hs1.2.2.1 c hcm).2.2.2.1,
        fun hmem => (hs1.2.2.1 c hcm).2.2.2.2 ((hsub2.map Agent.id).subset hmem)⟩)
    hs1.2.2.2
  by_cases h2000 : (w.tick + 1) % 2000 = 0
  · rw [if_pos h2000]
    split
    · -- meteor
      refine ⟨(meteorEvent_props env _ _ hc3).1, fun i hi => hb3 i ?_⟩
      exact (((meteorEvent_props env _ _ hc3).2).map Agent.id).subset hi
    · -- drought
      refine ⟨(droughtEvent_props env _ _ hc3).1, fun i hi => hb3 i ?_⟩
      rw [droughtEvent_ids] at hi
      exact hi
  · rw [if_neg h2000]
    exact ⟨hc3, hb3⟩

/-! ## Frame facts about the sweep (no invariant needed): the live ids
are never changed mid-sweep, and everything queued in `toAdd` is a
newborn. -/

theorem resolveFight_frame (env : Env) (s : SState) (a occ : Agent) :
    idsOf (resolveFight env s a occ).agents = idsOf s.agents ∧
    (resolveFight env s a occ).toAdd = s.toAdd := by
  unfold resolveFight
  dsimp only
  split
  · exact ⟨idsOf_updAgent fun b _ _ => rfl, rfl⟩
  · exact ⟨rfl, rfl⟩

theorem interact_frame (env : Env) (W H : ℕ) (s : SState) (a occ : Agent) (tx ty : ℕ) :
    idsOf (interact env W H s a occ tx ty).agents = idsOf s.agents ∧
    (∀ c ∈ (interact env W H s a occ tx ty).toAdd, c ∈ s.toAdd ∨ c.age = 0) := by
  unfold interact
  dsimp only
  split
  · exact ⟨idsOf_updAgent fun b _ _ => rfl, fun c hcm => Or.inl hcm⟩
  split
  · split
    next nx ny hfe =>
      split
      · refine ⟨?_, fun c hcm => Or.inl hcm⟩
        simp only [doMoveAgent, doMoveOccupant]
        have hu1 : idsOf (updAgent s.agents occ.id fun b => { b with x := nx, y := ny }) =
            idsOf s.agents :=
          idsOf_updAgent fun b _ _ => rfl
        have hu2 : idsOf (updAgent (updAgent s.agents occ.id fun b => { b with x := nx, y := ny })
              a.id fun b => { b with x := tx, y := ty, energy := b.energy - MOVE_COST }) =
            idsOf (updAgent s.agents occ.id fun b => { b with x := nx, y := ny }) :=
          idsOf_updAgent fun b _ _ => rfl
        exact hu2.trans hu1
      · refine ⟨?_, fun c hcm => Or.inl hcm⟩
        simp only [doMoveOccupant]
        exact idsOf_updAgent fun b _ _ => rfl
    · exact ⟨rfl, fun c hcm => Or.inl hcm⟩
  · split
    · split
      next nx ny hfe =>
        refine ⟨?_, ?_⟩
        · have hu1 : idsOf (updAgent s.agents a.id fun b =>
              { b with energy := b.energy - REPRODUCE_COST }) = idsOf s.agents :=
            idsOf_updAgent fun b _ _ => rfl
          have hu2 : idsOf (updAgent (updAgent s.agents a.id fun b =>
                { b with energy := b.energy - REPRODUCE_COST }) occ.id fun b =>
                { b with energy := b.energy - REPRODUCE_COST / (3/2) }) =
              idsOf (updAgent s.agents a.id fun b =>
                { b with energy := b.energy - REPRODUCE_COST }) :=
            idsOf_updAgent fun b _ _ => rfl
          exact hu2.trans hu1
        · intro c hcm
          rcases List.mem_append.1 hcm with hcm | hcm
          · exact Or.inl hcm
          · refine Or.inr ?_
            rw [List.mem_singleton.1 hcm]
            have hcore := try_mutate_core env
              (reproduce env (s.k + 2 + 1) a occ nx ny s.nextId).2
              (reproduce env (s.k + 2 + 1) a occ nx ny s.nextId).1
            rw [hcore.2.2.2.1, reproduce_fst]
      next hfe =>
        obtain ⟨hf1, hf2⟩ := resolveFight_frame env { s with k := s.k + 2 + 1 } a occ
        exact ⟨hf1, fun c hcm => Or.inl (hf2 ▸ hcm)⟩
    · obtain ⟨hf1, hf2⟩ := resolveFight_frame env { s with k := s.k + 2 + 1 } a occ
      exact ⟨hf1, fun c hcm => Or.inl (hf2 ▸ hcm)⟩

theorem moveBlock_frame (env : Env) (W H : ℕ) (s : SState) (a : Agent) :
    idsOf (moveBlock env W H s a).agents = idsOf s.agents ∧
    (∀ c ∈ (moveBlock env W H s a).toAdd, c ∈ s.toAdd ∨ c.age = 0) := by
  unfold moveBlock
  dsimp only
  split
  · split
    · exact ⟨rfl, fun c hcm => Or.inl hcm⟩
    · split
      · refine ⟨?_, fun c hcm => Or.inl hcm⟩
        simp only [doMoveAgent]
        exact idsOf_updAgent fun b _ _ => rfl
      · split
        · exact interact_frame env W H _ a _ _ _
        · exact ⟨rfl, fun c hcm => Or.inl hcm⟩
  · exact ⟨rfl, fun c hcm => Or.inl hcm⟩

theorem processAgent_frame (env : Env) (W H : ℕ) (s : SState) (i : ℕ) :
    idsOf (processAgent env W H s i).agents = idsOf s.agents ∧
    (∀ c ∈ (processAgent env W H s i).toAdd, c ∈ s.toAdd ∨ c.age = 0) := by
  unfold processAgent
  dsimp only
  split
  · exact ⟨rfl, fun c hcm => Or.inl hcm⟩
  next a0 hlook =>
    obtain ⟨ha0m, ha0id⟩ := lookupAgent_eq_some hlook
    split
    · split
      · exact ⟨rfl, fun c hcm => Or.inl hcm⟩
      · exact ⟨rfl, fun c hcm => Or.inl hcm⟩
    · have hupd : idsOf (updAgent s.agents i fun _ =>
          { a0 with age := a0.age + 1, energy := a0.energy - step_energy_cost a0 }) =
          idsOf s.agents :=
        idsOf_updAgent fun b _ hb => by rw [ha0id, hb]
      split
      · exact ⟨hupd, fun c hcm => Or.inl hcm⟩
      · have hmb := moveBlock_frame env W H
          { s with agents := updAgent s.agents i fun _ =>
              { a0 with age := a0.age + 1, energy := a0.energy - step_energy_cost a0 } }
          { a0 with age := a0.age + 1, energy := a0.energy - step_energy_cost a0 }
        split
        · exact ⟨hmb.1.trans hupd, hmb.2⟩
        · exact ⟨hmb.1.trans hupd, hmb.2⟩

theorem sweep_frame (env : Env) (W H : ℕ) (ids : List ℕ) (s0 : SState) :
    idsOf (ids.foldl (processAgent env W H) s0).agents = idsOf s0.agents ∧
    (∀ c ∈ (ids.foldl (processAgent env W H) s0).toAdd, c ∈ s0.toAdd ∨ c.age = 0) := by
  induction ids generalizing s0 with
  | nil => exact ⟨rfl, fun c hcm => Or.inl hcm⟩
  | cons i rest ih =>
    obtain ⟨ih1, ih2⟩ := ih (processAgent env W H s0 i)
    obtain ⟨hp1, hp2⟩ := processAgent_frame env W H s0 i
    refine ⟨ih1.trans hp1, fun c hcm => ?_⟩
    rcases ih2 c hcm with hcm' | hage
    · exact hp2 c hcm'
    · exact Or.inr hage

theorem commitRemovals_subset : ∀ (r : List ℕ) (l : List Agent) (g : Grid),
    ((commitRemovals r l g).1).Sublist l := by
  intro r
  induction r with
  | nil => exact fun l g => List.Sublist.refl _
  | cons i rest ih =>
    intro l g
    simp only [commitRemovals]
    split
    · exact (ih _ _).trans (eraseById_sublist l i)
    · exact ih _ _

theorem meteorEvent_subset (env : Env) (w : World) (k : ℕ) :
    ((meteorEvent env w k).1.agents).Sublist w.agents := by
  unfold meteorEvent
  dsimp only
  refine (foldl_inv
    (fun acc : ℕ × List Agent × Grid => acc.2.1.Sublist w.agents) _
    (fun acc x hacc => ?_) _ ((0 : ℕ), w.agents, w.grid) (List.Sublist.refl _))
  refine (foldl_inv
    (fun acc : ℕ × List Agent × Grid => acc.2.1.Sublist w.agents) _
    (fun acc y hacc => ?_) _ acc hacc)
  split
  · exact (eraseById_sublist _ _).trans hacc
  · exact hacc

theorem quad_mem {l l' : List Agent}
    (hq : l'.map (fun a => (a.id, a.x, a.y, a.age)) = l.map (fun a => (a.id, a.x, a.y, a.age)))
    {a' : Agent} (ha' : a' ∈ l') : ∃ a ∈ l, a.id = a'.id ∧ a.age = a'.age := by
  have hmem : (a'.id, a'.x, a'.y, a'.age) ∈ l.map (fun a => (a.id, a.x, a.y, a.age)) := by
    rw [← hq]
    exact List.mem_map_of_mem _ ha'
  obtain ⟨a, ham, hae⟩ := List.mem_map.1 hmem
  refine ⟨a, ham, ?_, ?_⟩
  · have := congrArg (fun q : ℕ × ℕ × ℕ × ℕ => q.1) hae
    simpa using this
  · have := congrArg (fun q : ℕ × ℕ × ℕ × ℕ => q.2.2.2) hae
    simpa using this

/-! ## Observable trace of a run -/

/-- The observables of an `n`-step run: per-tick `(population count,
mutation count)` pairs, and the final event log. -/
def trace (env : Env) : ℕ → World → ℕ → List (ℕ × ℕ) × List String
  | 0, w, _ => ([], w.event_log)
  | n + 1, w, k =>
    let r := step env w k
    let t := trace env n r.1 r.2
    ((r.1.agents.length, r.1.recent_mutations) :: t.1, t.2)

/-! ## Sequences of genetics operations (for the genome-range invariant) -/

/-- One genetics operation applied to an agent: a mutation pass (at some
stream position), or replacing the agent by the child it produces with a
partner. -/
inductive GenOp where
  | mutation (k : ℕ)
  | crossover (partner : Agent) (x y k nid : ℕ)

/-- Whether an operation's partner (if any) has in-range traits. -/
def opOk : GenOp → Prop
  | .mutation _ => True
  | .crossover p _ _ _ _ => traitsOk p

instance : ∀ op : GenOp, Decidable (opOk op) := by
  intro op
  cases op <;> (unfold opOk; infer_instance)

def applyOp (env : Env) (a : Agent) : GenOp → Agent
  | .mutation k => (try_mutate env k a).1
  | .crossover p x y k nid => (reproduce env k a p x y nid).1

def applyOps (env : Env) (a : Agent) (ops : List GenOp) : Agent :=
  ops.foldl (applyOp env) a

/-! # The claims -/

/-- C4.  Every genome trait stays within `[0,1]` under any sequence of
mutation and reproduction operations, starting from an agent with
in-range traits and using in-range partners. -/
theorem genome_traits_stay_in_range (env : Env) (a : Agent) (ops : List GenOp)
    (ha : traitsOk a) (hops : ∀ op ∈ ops, opOk op) :
    traitsOk (applyOps env a ops) := by
  unfold applyOps
  induction ops generalizing a with
  | nil => exact ha
  | cons op rest ih =>
    refine ih _ ?_ (fun o ho => hops o (List.mem_cons_of_mem _ ho))
    have hop := hops op (List.mem_cons_self _ _)
    cases op with
    | mutation k => exact try_mutate_traitsOk env k a ha
    | crossover p x y k nid => exact reproduce_traitsOk env k a p x y nid ha hop

/-- C6.  A child's traits lie between its parents' values (inclusive)
before mutation; applying the mutation operator afterwards keeps every
trait in `[0,1]`; and the child's initial energy is
`0.15 × (parentA.energy + parentB.energy)`. -/
theorem reproduce_child_bounds (env : Env) (k k2 : ℕ) (a b : Agent) (x y nid : ℕ)
    (ha : traitsOk a) (hb : traitsOk b) :
    (min a.r b.r ≤ (reproduce env k a b x y nid).1.r ∧
      (reproduce env k a b x y nid).1.r ≤ max a.r b.r) ∧
    (min a.g b.g ≤ (reproduce env k a b x y nid).1.g ∧
      (reproduce env k a b x y nid).1.g ≤ max a.g b.g) ∧
    (min a.b b.b ≤ (reproduce env k a b x y nid).1.b ∧
      (reproduce env k a b x y nid).1.b ≤ max a.b b.b) ∧
    (min a.strength b.strength ≤ (reproduce env k a b x y nid).1.strength ∧
      (reproduce env k a b x y nid).1.strength ≤ max a.strength b.strength) ∧
    (min a.mobility b.mobility ≤ (reproduce env k a b x y nid).1.mobility ∧
      (reproduce env k a b x y nid).1.mobility ≤ max a.mobility b.mobility) ∧
    (min a.cooperation b.cooperation ≤ (reproduce env k a b x y nid).1.cooperation ∧
      (reproduce env k a b x y nid).1.cooperation ≤ max a.cooperation b.cooperation) ∧
    (min a.give_way b.give_way ≤ (reproduce env k a b x y nid).1.give_way ∧
      (reproduce env k a b x y nid).1.give_way ≤ max a.give_way b.give_way) ∧
    traitsOk (try_mutate env k2 (reproduce env k a b x y nid).1).1 ∧
    (reproduce env k a b x y nid).1.energy = (a.energy + b.energy) * (3/20) := by
  rw [reproduce_fst]
  refine ⟨⟨min_le_mix _ _, mix_le_max _ _⟩, ⟨min_le_mix _ _, mix_le_max _ _⟩,
    ⟨min_le_mix _ _, mix_le_max _ _⟩, ⟨min_le_mix _ _, mix_le_max _ _⟩,
    ⟨min_le_mix _ _, mix_le_max _ _⟩, ⟨min_le_mix _ _, mix_le_max _ _⟩,
    ⟨min_le_mix _ _, mix_le_max _ _⟩, ?_, rfl⟩
  rw [← reproduce_fst env k a b x y nid]
  exact try_mutate_traitsOk env k2 _ (reproduce_traitsOk env k a b x y nid ha hb)

/-- C5 (amended).  If `try_mutate` reports no change, the agent is
unchanged; the converse fails (see the counterexample): a triggered
mutation can clamp back to the original value yet still report `True`. -/
theorem try_mutate_false_unchanged (env : Env) (k : ℕ) (a : Agent)
    (h : (try_mutate env k a).2.1 = false) : (try_mutate env k a).1 = a :=
  try_mutate_false env k a h

/-- C2 (amended).  In `World.step`'s per-agent loop, the skip test is
on the agent's *energy*: an agent whose energy is non-positive at the
start of its turn is only queued for removal (if not already queued) and
is otherwise untouched — it is not aged, not charged metabolism, does
not move and does not interact.  (A fight loser queued for removal while
its energy is still positive is *not* skipped; see the
counterexample.) -/
theorem processAgent_skips_energy_dead (env : Env) (W H : ℕ) (s : SState) (i : ℕ)
    (a : Agent) (hlook : lookupAgent s.agents i = some a) (hdead : a.energy ≤ 0) :
    processAgent env W H s i =
      if i ∈ s.toRemove then s else { s with toRemove := s.toRemove ++ [i] } := by
  unfold processAgent
  rw [hlook]
  dsimp only
  rw [if_pos hdead]

/-- C10.  The reproduction branch of the interaction resolver has no
minimum-energy precondition: whenever the give-way draws fail, the
cooperation draw succeeds and an empty Moore neighbour exists, a child is
queued and the initiator pays the full `REPRODUCE_COST` (the occupant
pays two thirds of it) — even when the initiator's energy is already
below `MIN_ENERGY_TO_REPRODUCE`, and even when the charge drives it
negative. -/
theorem reproduction_not_gated_by_energy (env : Env) (W H : ℕ) (s : SState)
    (a occ : Agent) (tx ty nx ny : ℕ)
    (_hsub : a.energy < MIN_ENERGY_TO_REPRODUCE)
    (hgwA : ¬env.stream s.k < a.give_way)
    (hgwB : ¬env.stream (s.k + 1) < occ.give_way)
    (hcoop : env.stream (s.k + 2) <
      a.cooperation * occ.cooperation * color_similarity env.sqrtQ a occ)
    (hempty : firstEmptyNeighbor s.grid W H a.x a.y = some (nx, ny)) :
    ∃ child : Agent,
      (interact env W H s a occ tx ty).toAdd = s.toAdd ++ [child] ∧
      child.age = 0 ∧
      child.energy = (a.energy + occ.energy) * (3/20) ∧
      (interact env W H s a occ tx ty).agents =
        updAgent (updAgent s.agents a.id fun b => { b with energy := b.energy - REPRODUCE_COST })
          occ.id fun b => { b with energy := b.energy - REPRODUCE_COST / (3/2) } := by
  unfold interact
  dsimp only
  rw [if_neg hgwA, if_neg hgwB, if_pos hcoop, hempty]
  refine ⟨(try_mutate env (reproduce env (s.k + 2 + 1) a occ nx ny s.nextId).2
      (reproduce env (s.k + 2 + 1) a occ nx ny s.nextId).1).1, rfl, ?_, ?_, rfl⟩
  · have hcore := try_mutate_core env
      (reproduce env (s.k + 2 + 1) a occ nx ny s.nextId).2
      (reproduce env (s.k + 2 + 1) a occ nx ny s.nextId).1
    rw [hcore.2.2.2.1, reproduce_fst]
  · have hcore := try_mutate_core env
      (reproduce env (s.k + 2 + 1) a occ nx ny s.nextId).2
      (reproduce env (s.k + 2 + 1) a occ nx ny s.nextId).1
    rw [hcore.2.2.2.2, reproduce_fst]

/-- C7.  `World.step` is deterministic: identical stream/sqrt
environment, identical initial world and identical cursor yield the
identical sequence of per-tick population counts and mutation counts and
the identical event log, for any number of steps. -/
theorem run_deterministic (env1 env2 : Env) (w1 w2 : World) (k1 k2 : ℕ) (n : ℕ)
    (henv : env1 = env2) (hw : w1 = w2) (hk : k1 = k2) :
    trace env1 n w1 k1 = trace env2 n w2 k2 := by
  subst henv
  subst hw
  subst hk
  rfl

/-! ## Event-log and empty-world support -/

theorem meteorEvent_agents_nil (env : Env) (w : World) (k : ℕ) (h : w.agents = []) :
    (meteorEvent env w k).1.agents = [] := by
  have hs := meteorEvent_subset env w k
  rw [h] at hs
  exact List.sublist_nil.1 hs

theorem append_two {α : Type _} (l : List α) (s1 s2 : α) :
    (l ++ [s1]) ++ [s2] = l ++ [s1, s2] := by
  simp

theorem count_species_empty (w : World) (bucket : ℕ) (h : w.agents = []) :
    count_species_by_color w bucket = (none, 0) := by
  unfold count_species_by_color
  rw [h]
  rfl

/-- C3 (amended).  On a tick whose counter is exactly divisible by 2000,
`World.step` fires exactly one of the two mutually exclusive events (one
uniform draw against the 1/2 threshold): a meteor, which appends *two*
log entries (the header line and the body-count line), or a drought,
which appends exactly one; on every other tick the event log is
unchanged. -/
theorem step_event_log_spec (env : Env) (w : World) (k : ℕ) :
    if (w.tick + 1) % 2000 = 0 then
      (∃ n : ℕ, (step env w k).1.event_log =
        w.event_log ++ [toString (w.tick + 1) ++ ": Meteoro - zona afectada",
          "  " ++ toString n ++ " individuos muertos por meteoro"]) ∨
      (step env w k).1.event_log =
        w.event_log ++ [toString (w.tick + 1) ++ ": Sequía - energía reducida temporalmente"]
    else (step env w k).1.event_log = w.event_log := by
  unfold step
  dsimp only
  by_cases h2000 : (w.tick + 1) % 2000 = 0
  · rw [if_pos h2000, if_pos h2000]
    split
    · left
      unfold meteorEvent
      dsimp only
      exact ⟨_, append_two _ _ _⟩
    · right
      rfl
  · rw [if_neg h2000, if_neg h2000]

/-- C8.  Stepping a world with no live agents raises no error,
increments the tick counter by exactly one and leaves the population
empty — also on event ticks — and the dominant-color query on the
result returns the `(None, 0)` empty-population sentinel. -/
theorem step_empty_world (env : Env) (w : World) (k : ℕ) (h : w.agents = []) :
    (step env w k).1.agents = [] ∧ (step env w k).1.tick = w.tick + 1 ∧
    count_species_by_color (step env w k).1 8 = (none, 0) := by
  have hagents : (step env w k).1.agents = [] := by
    unfold step
    dsimp only
    rw [h]
    by_cases h2000 : (w.tick + 1) % 2000 = 0
    · rw [if_pos h2000]
      split
      · exact meteorEvent_agents_nil env _ _ rfl
      · rfl
    · rw [if_neg h2000]
      rfl
  have htick : (step env w k).1.tick = w.tick + 1 := by
    unfold step
    dsimp only
    by_cases h2000 : (w.tick + 1) % 2000 = 0
    · rw [if_pos h2000]
      split
      · rfl
      · rfl
    · rw [if_neg h2000]
  exact ⟨hagents, htick, count_species_empty _ 8 hagents⟩

/-- C9.  A child queued by reproduction only joins the live collection
in the commit phase after the whole snapshot sweep, so an agent of the
post-step world whose id is new (not among the pre-step live ids) was
never evaluated during its creation tick: its age is still 0. -/
theorem newborn_not_evaluated (env : Env) (w : World) (k : ℕ) :
    ∀ a' ∈ (step env w k).1.agents, a'.id ∉ idsOf w.agents → a'.age = 0 := by
  intro a' ha' hfresh
  unfold step at ha'
  dsimp only at ha'
  set sh := shuffleAgents env w.agents k with hsh
  set s0 : SState := ⟨sh.1, w.grid, [], [], 0, w.nextId, sh.2⟩ with hs0def
  set s1 := List.foldl (processAgent env w.width w.height) s0 (List.map Agent.id sh.1)
    with hs1def
  have hcore : ∀ b : Agent,
      b ∈ (commitAdds s1.toAdd (commitRemovals s1.toRemove s1.agents s1.grid).1
        (commitRemovals s1.toRemove s1.agents s1.grid).2).1 →
      b.id ∉ idsOf w.agents → b.age = 0 := by
    intro b hb hbf
    rcases commitAdds_mem _ _ _ _ hb with hb' | hb'
    · exfalso
      apply hbf
      have h1 : b ∈ s1.agents := (commitRemovals_subset _ _ _).subset hb'
      have h2 : b.id ∈ idsOf s1.agents := List.mem_map_of_mem _ h1
      have h3 : idsOf s1.agents = idsOf s0.agents :=
        (sweep_frame env w.width w.height (List.map Agent.id sh.1) s0).1
      rw [h3] at h2
      exact ((shuffleAgents_perm env w.agents k).map Agent.id).mem_iff.1 h2
    · rcases (sweep_frame env w.width w.height (List.map Agent.id sh.1) s0).2 b hb'
        with hb'' | hage
      · cases hb''
      · exact hage
  by_cases h2000 : (w.tick + 1) % 2000 = 0
  · rw [if_pos h2000] at ha'
    split at ha'
    · -- meteor: survivors are a sub-collection of the committed world
      exact hcore a' ((meteorEvent_subset env _ _).subset ha') hfresh
    · -- drought: agents keep their id and age
      obtain ⟨b, hbm, hbid, hbage⟩ := quad_mem (droughtGo_quad env _ _) ha'
      rw [← hbage]
      exact hcore b hbm (hbid ▸ hfresh)
  · rw [if_neg h2000] at ha'
    exact hcore a' ha' hfresh

/-! ## Concrete evaluations

Small fully concrete worlds and streams, evaluated by the kernel: each
hypothesis-bearing claim theorem is instantiated at one of them, and the
corrected claims are refuted on them.  `Rat`'s arithmetic is marked
irreducible upstream; inside this section it is made semireducible again
so that `decide` can evaluate the embedding on concrete rationals. -/

section ConcreteEvaluations

attribute [local semireducible] Rat.add Rat.mul Rat.inv Rat.sub

/-- A literal stream: the listed draws, then zeroes. -/
def vals (l : List ℚ) : ℕ → ℚ := fun k => l.getD k 0

/-- The all-zero environment (every draw 0, `sqrt` evaluated as 0). -/
def env0 : Env := ⟨fun _ => 0, fun _ => 0⟩

/-- A placeholder agent for `List.getD`. -/
def agent0 : Agent := ⟨0, 0, 0, 0, 0, 0, 0, 0, 0, 0, 0, 0⟩

/-- A coherent 2×2 world with one live agent. -/
def wInv1 : World :=
  ⟨2, 2, [[some 1, none], [none, none]],
    [⟨0, 0, 1/2, 1/2, 1/2, 1/2, 1/2, 1/2, 1/2, 100, 0, 1⟩], 0, 0, [], 2⟩

/-- An agent whose energy is already negative at the start of its turn. -/
def aD : Agent := ⟨0, 0, 0, 0, 0, 0, 0, 0, 0, -5, 0, 7⟩

def sD : SState := ⟨[aD], [[some 7]], [], [], 0, 8, 0⟩

/-- Three agents on a 1×3 strip: strong `A2x`, strong `B2x`, weak `C2x`. -/
def A2x : Agent := ⟨0, 0, 1, 1, 1, 1, 1, 0, 0, 100, 0, 1⟩

def B2x : Agent := ⟨1, 0, 1, 1, 1, 1, 1, 0, 0, 50, 0, 2⟩

def C2x : Agent := ⟨2, 0, 1, 1, 1, 0, 0, 0, 0, 30, 0, 3⟩

/-- Draws under which the sweep order is `A2x, B2x, C2x`, `A2x` beats
`B2x` in a fight (queueing `B2x` for removal), and `B2x` — still holding
positive energy on its own turn — fights and beats `C2x`. -/
def env2 : Env :=
  ⟨vals [0, 1/2, 2/3, 0, 1/2, 0, 0, 0, 0, 0, 2/3, 0, 0, 0, 0, 0], fun _ => 0⟩

def w2 : World := ⟨3, 1, [[some 1], [some 2], [some 3]], [A2x, B2x, C2x], 0, 0, [], 4⟩

/-- An empty world one tick before an event tick. -/
def w3 : World := ⟨1, 1, [[none]], [], 1999, 0, [], 1⟩

/-- An agent whose red channel sits at the clamp boundary 0. -/
def a5 : Agent := ⟨0, 0, 0, 1, 1, 1, 1, 1, 1, 100, 0, 1⟩

/-- First trait triggers (draw 0 < rate) with noise draw 0, i.e. the full
negative magnitude, clamped straight back to 0; no other trait triggers. -/
def env5 : Env := ⟨vals [0, 0, 1/2, 1/2, 1/2, 1/2, 1/2, 1/2], fun _ => 0⟩

/-- Every draw 1/2: no per-trait mutation roll triggers. -/
def envH : Env := ⟨fun _ => 1/2, fun _ => 0⟩

/-- Two parents with in-range traits. -/
def pA : Agent := ⟨0, 0, 1/4, 1/2, 3/4, 1, 0, 1/2, 0, 100, 0, 1⟩

def pB : Agent := ⟨1, 0, 3/4, 1/2, 1/4, 0, 1, 1/2, 1, 60, 0, 2⟩

/-- Two cooperative neighbours that reproduce on the first tick. -/
def A9 : Agent := ⟨0, 0, 1, 1, 1, 1, 1, 1, 0, 100, 0, 1⟩

def B9 : Agent := ⟨1, 0, 1, 1, 1, 0, 0, 1, 0, 100, 0, 2⟩

/-- Draws: identity shuffle, `A9` moves towards `B9` and the cooperation
draw succeeds, so a child (id 3) is queued; `B9`'s turn stays put. -/
def env9 : Env :=
  ⟨vals [0, 1/2, 0, 1/4, 0, 0, 0, 0, 1/2, 1/2, 1/2, 1/2, 1/2, 1/2, 1/2, 0], fun _ => 0⟩

def w9 : World := ⟨3, 2, [[some 1, none], [some 2, none], [none, none]], [A9, B9], 0, 0, [], 3⟩

/-- An initiator far below `MIN_ENERGY_TO_REPRODUCE` (energy 2). -/
def a10 : Agent := ⟨0, 0, 1, 1, 1, 1, 1, 1, 0, 2, 0, 1⟩

def occ10 : Agent := ⟨1, 0, 1, 1, 1, 1, 1, 1, 0, 5, 0, 2⟩

def s10 : SState := ⟨[a10, occ10], [[some 1, none], [some 2, none]], [], [], 0, 3, 0⟩

/-- Witness for C1 at a concrete coherent world: the invariant holds
before the step (discharged by evaluation) and therefore after it. -/
theorem step_preserves_inv_witness : WorldInv (step env0 wInv1 0).1 :=
  step_preserves_inv env0 wInv1 0 (by decide)

/-- Witness for C2 (amended): the energy-dead agent 7 is only queued for
removal on its turn; the rest of the sweep state is untouched. -/
theorem processAgent_skips_energy_dead_witness :
    processAgent env0 1 1 sD 7 =
      if 7 ∈ sD.toRemove then sD else { sD with toRemove := sD.toRemove ++ [7] } :=
  processAgent_skips_energy_dead env0 1 1 sD 7 aD (by decide) (by decide)

/-- Counterexample to C2 as stated: `B2x` is queued for removal as
`A2x`'s fight loser, yet — its energy still positive — it is *not*
skipped on its own turn: it fights and kills `C2x`, so only agent 1
survives the tick (the claimed skip would have let agent 3 live). -/
theorem fight_loser_still_acts_cex :
    (step env2 w2 0).1.agents.map Agent.id = [1] := by decide

/-- Counterexample to C3 as stated: on the event tick the meteor appends
*two* event-log entries, not exactly one. -/
theorem meteor_appends_two_entries_cex :
    w3.event_log = [] ∧ (w3.tick + 1) % 2000 = 0 ∧
    (step env0 w3 0).1.event_log.length = 2 := by decide

/-- Witness for C4: a mutation pass followed by a crossover with an
in-range partner keeps every trait of `pA` inside `[0,1]`. -/
theorem genome_traits_stay_in_range_witness :
    traitsOk (applyOps env0 pA [GenOp.mutation 0, GenOp.crossover pB 0 0 0 5]) :=
  genome_traits_stay_in_range env0 pA [GenOp.mutation 0, GenOp.crossover pB 0 0 0 5]
    (by decide) (by decide)

/-- Witness for C5 (amended): under draws that trigger no per-trait
roll, `try_mutate` reports `false` and the agent is unchanged. -/
theorem try_mutate_false_unchanged_witness : (try_mutate envH 0 a5).1 = a5 :=
  try_mutate_false_unchanged envH 0 a5 (by decide)

/-- Counterexample to C5 as stated: a triggered mutation whose noise is
clamped back to the original value reports `true` while no trait of the
agent changed. -/
theorem mutation_flag_true_unchanged_cex :
    (try_mutate env5 0 a5).2.1 = true ∧ (try_mutate env5 0 a5).1 = a5 := by decide

/-- Witness for C6 at two concrete in-range parents: the child's red
channel lies between the parents' and its energy is 0.15 of the sum. -/
theorem reproduce_child_bounds_witness :
    (min pA.r pB.r ≤ (reproduce env0 0 pA pB 0 0 9).1.r ∧
      (reproduce env0 0 pA pB 0 0 9).1.r ≤ max pA.r pB.r) ∧
    (reproduce env0 0 pA pB 0 0 9).1.energy = (pA.energy + pB.energy) * (3/20) :=
  ⟨(reproduce_child_bounds env0 0 1 pA pB 0 0 9 (by decide) (by decide)).1,
   (reproduce_child_bounds env0 0 1 pA pB 0 0 9
     (by decide) (by decide)).2.2.2.2.2.2.2.2⟩

/-- Witness for C7: two runs from the same environment, world and cursor
produce the same two-tick trace. -/
theorem run_deterministic_witness : trace env2 2 w2 0 = trace env2 2 w2 0 :=
  run_deterministic env2 env2 w2 w2 0 0 2 rfl rfl rfl

/-- Witness for C8 on an empty world stepping *into* an event tick:
population stays empty, the tick increments, the species query returns
the sentinel. -/
theorem step_empty_world_witness :
    (step env0 w3 0).1.agents = [] ∧ (step env0 w3 0).1.tick = w3.tick + 1 ∧
    count_species_by_color (step env0 w3 0).1 8 = (none, 0) :=
  step_empty_world env0 w3 0 rfl

/-- Witness for C9: the fresh-id agent of the stepped world (the child,
id 3, at index 2) has age 0. -/
theorem newborn_not_evaluated_witness :
    ((step env9 w9 0).1.agents.getD 2 agent0).age = 0 :=
  newborn_not_evaluated env9 w9 0 ((step env9 w9 0).1.agents.getD 2 agent0)
    (by decide) (by decide)

/-- Witness for C10 at an initiator with energy 2 (far below the
threshold 80): the reproduction branch still fires, queues a child of
age 0 with energy `0.15 × (2 + 5)` and charges both parents. -/
theorem reproduction_not_gated_by_energy_witness :
    ∃ child : Agent,
      (interact env0 2 2 s10 a10 occ10 1 0).toAdd = s10.toAdd ++ [child] ∧
      child.age = 0 ∧
      child.energy = (a10.energy + occ10.energy) * (3/20) ∧
      (interact env0 2 2 s10 a10 occ10 1 0).agents =
        updAgent (updAgent s10.agents a10.id fun b => { b with energy := b.energy - REPRODUCE_COST })
          occ10.id fun b => { b with energy := b.energy - REPRODUCE_COST / (3/2) } :=
  reproduction_not_gated_by_energy env0 2 2 s10 a10 occ10 1 0 0 1
    (by decide) (by decide) (by decide) (by decide) (by decide)

end ConcreteEvaluations

end PixeLife
